import Mathlib

/-!
Verification of the RAG memory engine (hybrid search + atomic facts + profile)
against its natural-language specification.

The development shallowly embeds the TypeScript sources:
* `chunkText` (providers/rag/index.ts, both the default-parameter and the
  config-parameter variant share the identical algorithm),
* the profile merge rule (providers/rag/profile.ts),
* the in-memory fact store and its cosine similarity (providers/rag/facts.ts),
* the LLM reranker post-processing (providers/rag/reranker.ts),
* the `RAGProvider` ingest / search / clear orchestration (providers/rag/index.ts).

JavaScript numbers are modelled as real numbers; strings as `String` /
`List Char`.  External I/O (LLM calls, the embedder) is modelled as oracle
function parameters.  The `HybridSearchEngine` (search.ts) and the entity
graph internals (graph.ts) are not part of the provided sources; where needed
they are modelled from the specification and marked as such.
-/

namespace RAG

/-! ## JavaScript string primitives -/

/-- JS `String.prototype.trim` on a character list: strip whitespace from
both ends. -/
def jsTrim (s : List Char) : List Char :=
  ((s.dropWhile Char.isWhitespace).reverse.dropWhile Char.isWhitespace).reverse

/-- Whether `needle` occurs at the head of `hay` (prefix match used by the
substring scan below). -/
def matchHead : List Char → List Char → Bool
  | [], _ => true
  | _ :: _, [] => false
  | c :: cs, h :: hs => c = h && matchHead cs hs

/-- JS `String.prototype.includes`: `containsSub hay needle` is true when
`needle` occurs contiguously inside `hay`. -/
def containsSub : List Char → List Char → Bool
  | [], n => n.isEmpty
  | h :: t, n => matchHead n (h :: t) || containsSub t n

/-- JS `String.prototype.lastIndexOf(needle, fromIndex)` restricted to the
successful case: the largest position `i ≤ fromIndex` where `needle` starts. -/
def lastIdxFrom (hay needle : List Char) : ℕ → Option ℕ
  | 0 => if matchHead needle hay then some 0 else none
  | i + 1 =>
    if matchHead needle (hay.drop (i + 1)) then some (i + 1)
    else lastIdxFrom hay needle i

/-- JS `lastIndexOf` with the `-1` sentinel, as an integer. -/
def jsLastIndexOf (hay needle : List Char) (fromIdx : ℕ) : ℤ :=
  match lastIdxFrom hay needle fromIdx with
  | some i => (i : ℤ)
  | none => -1

/-! ## Chunker (`chunkText`)

Source: providers/rag/index.ts lines 40–74 (and the identical copy in the
simplified provider).  The JS loop mutates `start`; we model one loop
iteration's break-point computation (`breakAt`), emitted slice (`sliceAt`)
and next start offset (`nextStart`), and run the loop on explicit fuel.
`none` models a run that does not terminate within the given fuel; since the
loop state is just `start ∈ [0, text.length]` and the body is deterministic,
a JS run that terminates at all terminates within `text.length + 2`
iterations. -/

/-- Break-point search of one `chunkText` iteration: try the last `". "` at
or before `start + chunkSize`, fall back to the last newline, then the last
space (each accepted only under the source's guard), finally the hard
boundary.  The comparison `breakPoint < start + chunkSize * 0.5` is exact on
integers as `2·breakPoint < 2·start + chunkSize`. -/
def breakAt (text : List Char) (chunkSize start : ℕ) : ℤ :=
  let e := start + chunkSize
  let bp1 := jsLastIndexOf text ['.', ' '] e
  let bp2 :=
    if bp1 ≤ (start : ℤ) ∨ 2 * bp1 < 2 * (start : ℤ) + chunkSize then
      jsLastIndexOf text ['\n'] e
    else bp1
  let bp3 :=
    if bp2 ≤ (start : ℤ) ∨ 2 * bp2 < 2 * (start : ℤ) + chunkSize then
      jsLastIndexOf text [' '] e
    else bp2
  if bp3 ≤ (start : ℤ) then (e : ℤ) else bp3

/-- The slice `text.slice(start, breakPoint + 1).trim()` emitted by one
iteration. -/
def sliceAt (text : List Char) (chunkSize start : ℕ) : List Char :=
  jsTrim ((text.drop start).take ((breakAt text chunkSize start + 1).toNat - start))

/-- The next `start`: `breakPoint + 1 - overlap`, clamped at `0`. -/
def nextStart (text : List Char) (chunkSize overlap start : ℕ) : ℕ :=
  (breakAt text chunkSize start + 1 - overlap).toNat

/-- The `while (start < text.length)` loop of `chunkText`, on fuel. -/
def chunkLoop (text : List Char) (chunkSize overlap : ℕ) :
    ℕ → ℕ → List (List Char) → Option (List (List Char))
  | 0, _, _ => none
  | fuel + 1, start, acc =>
    if start < text.length then
      if text.length ≤ start + chunkSize then
        some (acc ++ [jsTrim (text.drop start)])
      else
        chunkLoop text chunkSize overlap fuel (nextStart text chunkSize overlap start)
          (acc ++ [sliceAt text chunkSize start])
    else some acc

/-- `chunkText(text, chunkSize, overlap)`: texts that fit return the single
trimmed text (unfiltered, exactly as in the source); longer texts run the
split loop and filter out empty results. -/
def chunkText (fuel : ℕ) (text : List Char) (chunkSize overlap : ℕ) :
    Option (List (List Char)) :=
  if text.length ≤ chunkSize then some [jsTrim text]
  else (chunkLoop text chunkSize overlap fuel 0 []).map
    (List.filter fun c => !c.isEmpty)

/-- When the loop body maps `start = 0` back to `0`, the loop never
terminates: every fuel bound is exhausted. -/
theorem chunkLoop_stall (text : List Char) (chunkSize overlap : ℕ)
    (hlen : 0 < text.length) (hcs : ¬ text.length ≤ chunkSize)
    (hstall : nextStart text chunkSize overlap 0 = 0) :
    ∀ fuel acc, chunkLoop text chunkSize overlap fuel 0 acc = none := by
  intro fuel
  induction fuel with
  | zero => intro acc; rfl
  | succ n ih =>
    intro acc
    have h0 : 0 + chunkSize = chunkSize := by omega
    simp only [chunkLoop, if_pos hlen, h0, if_neg hcs, hstall]
    exact ih _

/-- Helper for the boundary claim: on a text one character longer than
`chunkSize`, a terminating run of the split loop pushes at most two slices. -/
theorem chunkLoop_two_pushes (text : List Char) (chunkSize overlap : ℕ)
    (hlen : text.length = chunkSize + 1) :
    ∀ fuel res, chunkLoop text chunkSize overlap fuel 0 [] = some res →
      res.length ≤ 2 := by
  intro fuel res hres
  have hpos : 0 < text.length := by omega
  have hnle : ¬ text.length ≤ chunkSize := by omega
  cases fuel with
  | zero => simp [chunkLoop] at hres
  | succ f =>
    have h0 : 0 + chunkSize = chunkSize := by omega
    simp only [chunkLoop, if_pos hpos, h0, if_neg hnle] at hres
    by_cases hstall : nextStart text chunkSize overlap 0 = 0
    · rw [hstall, chunkLoop_stall text chunkSize overlap hpos hnle hstall] at hres
      exact absurd hres (by simp)
    · have hs1 : 0 < nextStart text chunkSize overlap 0 := Nat.pos_of_ne_zero hstall
      cases f with
      | zero => simp [chunkLoop] at hres
      | succ g =>
        by_cases hin : nextStart text chunkSize overlap 0 < text.length
        · have hdone : text.length ≤ nextStart text chunkSize overlap 0 + chunkSize := by
            omega
          simp only [chunkLoop, if_pos hin, if_pos hdone] at hres
          injection hres with h
          subst h
          simp
        · simp only [chunkLoop, if_neg hin] at hres
          injection hres with h
          subst h
          simp

/-- C6 (amended): for every `chunkSize` and `overlap`, a text of length
exactly `chunkSize` yields exactly the one chunk `[text.trim()]`; a text of
length `chunkSize + 1` yields at most two chunks whenever the chunker
terminates (blank slices are filtered out, so "exactly two" fails, and the
split loop can also fail to terminate when the chosen break-point does not
outrun the overlap). -/
theorem C6_chunk_size_boundary (fuel chunkSize overlap : ℕ) (text : List Char) :
    (text.length = chunkSize →
      chunkText fuel text chunkSize overlap = some [jsTrim text]) ∧
    (text.length = chunkSize + 1 →
      ∀ res, chunkText fuel text chunkSize overlap = some res → res.length ≤ 2) := by
  constructor
  · intro h
    simp [chunkText, h]
  · intro hlen res hres
    have hnle : ¬ text.length ≤ chunkSize := by omega
    simp only [chunkText, if_neg hnle, Option.map_eq_some'] at hres
    obtain ⟨l, hl, rfl⟩ := hres
    exact le_trans (List.length_filter_le _ _) (chunkLoop_two_pushes text chunkSize overlap hlen fuel l hl)

/-- C6 counterexample: with `chunkSize = 2`, `overlap = 0`, the three-space
text (length `chunkSize + 1`) yields zero chunks, not two: the single emitted
slice trims to the empty string and is filtered out, and the final tail slice
is never reached because the loop exits at `start = 3`. -/
theorem C6_counterexample :
    chunkText 5 ("   ".toList) 2 0 = some [] ∧
    ¬ (∀ res, chunkText 5 ("   ".toList) 2 0 = some res → res.length = 2) := by
  refine ⟨by decide, fun h => ?_⟩
  simpa using h [] (by decide)

/-- C6 witness: both halves of the amended boundary theorem applied at
concrete inputs (`"ab"` with `chunkSize = 2`, and the three-space text with
`chunkSize = 2`). -/
theorem C6_witness :
    chunkText 1 ("ab".toList) 2 0 = some [jsTrim ("ab".toList)] ∧
    ([] : List (List Char)).length ≤ 2 := by
  refine ⟨(C6_chunk_size_boundary 1 2 0 ("ab".toList)).1 (by decide), ?_⟩
  exact (C6_chunk_size_boundary 5 2 0 ("   ".toList)).2 (by decide) [] (by decide)

/-- C7 (amended): every passage returned by the split loop (texts longer
than `chunkSize`) is non-empty after trimming, because empty results are
filtered; but a text that already fits within `chunkSize` is returned whole
as `[text.trim()]` without filtering, which is the empty passage when the
text is all whitespace. -/
theorem C7_chunks_nonempty (fuel chunkSize overlap : ℕ) (text : List Char) :
    chunkSize < text.length →
    ∀ res, chunkText fuel text chunkSize overlap = some res →
      ∀ c ∈ res, c ≠ [] := by
  intro hlt res hres c hc
  have hnle : ¬ text.length ≤ chunkSize := by omega
  simp only [chunkText, if_neg hnle, Option.map_eq_some'] at hres
  obtain ⟨l, _, rfl⟩ := hres
  have := List.of_mem_filter hc
  simpa using this

/-- C7 counterexample: a single-space text fits in the default
`chunkSize = 1600`, so `chunkText` returns `[""]` — a list containing an
empty trimmed passage, violating "every passage is non-empty after
trimming". -/
theorem C7_counterexample :
    chunkText 1 (" ".toList) 1600 320 = some [[]] ∧
    ¬ (∀ res, chunkText 1 (" ".toList) 1600 320 = some res → ∀ c ∈ res, c ≠ []) := by
  refine ⟨by decide, fun h => ?_⟩
  exact h [[]] (by decide) [] (by decide) rfl

/-- C7 witness: the amended theorem applied to the concrete text `"ab"` with
`chunkSize = 1`, whose two emitted chunks are both non-empty. -/
theorem C7_witness : ['a', 'b'] ≠ ([] : List Char) :=
  C7_chunks_nonempty 3 1 0 ("ab".toList) (by decide) [['a', 'b']] (by decide)
    ['a', 'b'] (by decide)

/-! ## Profile store (`profile.ts`)

Source: providers/rag/profile.ts.  `extractWords` lowercases, replaces
non-alphanumerics by spaces, splits on whitespace, keeps words of length
> 1 and collects them into a set (modelled as a deduplicated list);
`wordOverlap` is shared-word count over the smaller set size;
`mergeProfiles` folds each incoming fact over the retained list, replacing
the first retained fact with overlap ≥ 0.6, else appending. -/

/-- User profile: an ordered list of short biographical facts. -/
structure UserProfile where
  facts : List String
deriving DecidableEq, Repr

/-- Character cleanup of `extractWords`: lowercase, keep `[a-z0-9]` and
whitespace, replace everything else with a space. -/
def cleanChar (c : Char) : Char :=
  let lc := c.toLower
  if ('a' ≤ lc ∧ lc ≤ 'z') ∨ ('0' ≤ lc ∧ lc ≤ '9') ∨ lc.isWhitespace then lc
  else ' '

/-- Split a character list on whitespace runs, dropping empty segments
(JS `split(/\s+/)` produces at most one leading empty segment, which the
`length > 1` filter in `extractWords` removes anyway). -/
def splitWs (s : List Char) : List String :=
  ((s.splitOn ' ').filter fun w => ¬ w.isEmpty).map fun w => String.mk w

/-- `extractWords(text)`: the word set of a fact, as a deduplicated list
(first occurrences, like JS `Set` insertion order). -/
def extractWords (s : String) : List String :=
  ((splitWs ((s.toList.map cleanChar).map fun c =>
      if c.isWhitespace then ' ' else c)).filter fun w => 1 < w.length).dedup

/-- `wordOverlap(a, b)`: shared-word count divided by the smaller word-set
size; `0` when either set is empty.  Exact rational arithmetic models the
JS float division (all quantities here are small integers). -/
def wordOverlap (a b : String) : ℚ :=
  let wa := extractWords a
  let wb := extractWords b
  if wa.length = 0 ∨ wb.length = 0 then 0
  else ((wa.filter fun w => w ∈ wb).length : ℚ) / (min wa.length wb.length : ℚ)

/-- One step of the `mergeProfiles` fold: the incoming fact replaces the
first retained fact with word-overlap ≥ 0.6, else is appended. -/
def mergeStep (merged : List String) (newFact : String) : List String :=
  match merged.findIdx? fun f => decide (wordOverlap f newFact ≥ 0.6) with
  | some i => merged.set i newFact
  | none => merged ++ [newFact]

/-- `mergeProfiles(existing, incoming)`. -/
def mergeProfiles (existing incoming : UserProfile) : UserProfile :=
  { facts := incoming.facts.foldl mergeStep existing.facts }

/-- C4 (amended): the merge rule only guarantees local non-overlap on
append: an incoming fact whose word-overlap with every retained fact is
below 0.6 is appended unchanged, and an incoming fact overlapping some
retained fact replaces one in place, keeping the profile length.  The
claimed global invariant (no two retained facts overlap ≥ 0.6) does not
hold, because a replacement can overlap retained facts beyond the one it
replaced. -/
theorem C4_profile_merge (facts : List String) (f : String) :
    ((∀ g ∈ facts, wordOverlap g f < 0.6) →
      (mergeProfiles ⟨facts⟩ ⟨[f]⟩).facts = facts ++ [f]) ∧
    ((∃ g ∈ facts, 0.6 ≤ wordOverlap g f) →
      (mergeProfiles ⟨facts⟩ ⟨[f]⟩).facts.length = facts.length ∧
        f ∈ (mergeProfiles ⟨facts⟩ ⟨[f]⟩).facts) := by
  have hmerge : (mergeProfiles ⟨facts⟩ ⟨[f]⟩).facts = mergeStep facts f := rfl
  constructor
  · intro hall
    rw [hmerge]
    have hnone : facts.findIdx? (fun g => decide (wordOverlap g f ≥ 0.6)) = none := by
      rw [List.findIdx?_eq_none_iff]
      intro g hg
      simpa using not_le.mpr (hall g hg)
    simp [mergeStep, hnone]
  · intro hex
    rw [hmerge]
    unfold mergeStep
    rcases hidx : facts.findIdx? (fun g => decide (wordOverlap g f ≥ 0.6)) with _ | i
    · rw [List.findIdx?_eq_none_iff] at hidx
      obtain ⟨g, hg, hge⟩ := hex
      have := hidx g hg
      simp only [decide_eq_false_iff_not, not_le] at this
      exact absurd hge (not_le.mpr this)
    · have hi : i < facts.length := by
        have := List.findIdx?_eq_some_iff_findIdx_eq.mp hidx
        exact this.1
      constructor
      · simp
      · exact List.mem_set facts i hi f

/-- C4 counterexample: starting from the empty profile, merge
`["aa bb", "aa cc"]` (pairwise overlap 1/2 < 0.6, so both are retained) and
then merge `["aa bb cc"]`.  The incoming fact replaces the first retained
fact, producing the profile `["aa bb cc", "aa cc"]` whose two facts have
word-overlap 1 ≥ 0.6 — the claimed invariant is violated after a sequence
of `mergeProfiles` calls. -/
theorem C4_counterexample :
    (mergeProfiles (mergeProfiles ⟨[]⟩ ⟨["aa bb", "aa cc"]⟩) ⟨["aa bb cc"]⟩).facts
      = ["aa bb cc", "aa cc"] ∧
    0.6 ≤ wordOverlap "aa bb cc" "aa cc" := by
  have o1 : wordOverlap "aa bb" "aa cc" = 1/2 := by
    simp only [wordOverlap, (by decide : extractWords "aa bb" = ["aa", "bb"]),
      (by decide : extractWords "aa cc" = ["aa", "cc"])]
    simp +decide [List.filter, min_def]
  have o2 : wordOverlap "aa bb" "aa bb cc" = 1 := by
    simp only [wordOverlap, (by decide : extractWords "aa bb" = ["aa", "bb"]),
      (by decide : extractWords "aa bb cc" = ["aa", "bb", "cc"])]
    simp +decide [List.filter, min_def]
  have o3 : wordOverlap "aa bb cc" "aa cc" = 1 := by
    simp only [wordOverlap, (by decide : extractWords "aa cc" = ["aa", "cc"]),
      (by decide : extractWords "aa bb cc" = ["aa", "bb", "cc"])]
    simp +decide [List.filter, min_def]
  have d1 : decide (wordOverlap "aa bb" "aa cc" ≥ 0.6) = false := by
    simp only [decide_eq_false_iff_not, ge_iff_le, not_le, o1]; norm_num
  have d2 : decide (wordOverlap "aa bb" "aa bb cc" ≥ 0.6) = true := by
    simp only [decide_eq_true_eq, ge_iff_le, o2]; norm_num
  refine ⟨?_, by rw [o3]; norm_num⟩
  simp [mergeProfiles, mergeStep, List.findIdx?_cons, List.findIdx?_nil, d1, d2]

/-- C4 witness: the amended merge theorem applied at a concrete profile.
Merging the unrelated fact `"dd ee"` into `["aa bb"]` appends it. -/
theorem C4_witness :
    (mergeProfiles ⟨["aa bb"]⟩ ⟨["dd ee"]⟩).facts = ["aa bb"] ++ ["dd ee"] := by
  have o : wordOverlap "aa bb" "dd ee" = 0 := by
    simp only [wordOverlap, (by decide : extractWords "aa bb" = ["aa", "bb"]),
      (by decide : extractWords "dd ee" = ["dd", "ee"])]
    simp +decide [List.filter, min_def]
  refine (C4_profile_merge ["aa bb"] "dd ee").1 ?_
  intro g hg
  have hgv : g = "aa bb" := by simpa using hg
  rw [hgv, o]
  norm_num

/-! ## Generic string-keyed map operations

JS `Map` modelled as an association list in insertion order.  `Map.set` on an
existing key overwrites in place; on a new key it appends. -/

/-- JS `Map.prototype.set`. -/
def setEntry {α : Type} (m : List (String × α)) (k : String) (v : α) :
    List (String × α) :=
  match m.findIdx? fun e => e.1 == k with
  | some i => m.set i (k, v)
  | none => m ++ [(k, v)]

/-- JS `Map.prototype.delete`. -/
def removeEntry {α : Type} (m : List (String × α)) (k : String) :
    List (String × α) :=
  m.filter fun e => e.1 != k

/-! ## Fact store (`facts.ts`)

Source: providers/rag/facts.ts.  JS numbers are modelled as reals; the
nested `Map<string, Map<string, AtomicFact>>` as an association list of fact
lists in insertion order (the inner map keyed by `fact.id`). -/

/-- An atomic fact record (facts.ts `AtomicFact`; the `metadata`-free record
is exactly the source interface). -/
structure AtomicFact where
  id : String
  content : String
  sessionId : String
  date : Option String := none
  eventDate : Option String := none
  factIndex : ℕ
  embedding : List ℝ

/-- A scored fact search result (facts.ts `FactSearchResult`). -/
structure FactSearchResult where
  content : String
  score : ℝ
  sessionId : String
  date : Option String := none
  eventDate : Option String := none
  factIndex : ℕ

/-- The `for (let i = 0; i < a.length; i++)` accumulation shared by the
three sums of `cosineSimilarity` (out-of-range reads never happen because
the function first checks the lengths). -/
noncomputable def dotRange (a b : List ℝ) (n : ℕ) : ℝ :=
  ∑ i ∈ Finset.range n, a.getD i 0 * b.getD i 0

/-- Squared Euclidean norm of a vector, as accumulated by
`cosineSimilarity` (`normA += a[i] * a[i]`). -/
noncomputable def sumSq (a : List ℝ) : ℝ := dotRange a a a.length

open Classical in
/-- `cosineSimilarity(a, b)` from facts.ts: `0` on length mismatch, `0` when
the denominator `√normA · √normB` is zero, else the normalized dot
product. -/
noncomputable def cosineSimilarity (a b : List ℝ) : ℝ :=
  if a.length ≠ b.length then 0
  else
    let dot := dotRange a b a.length
    let denom := Real.sqrt (dotRange a a a.length) * Real.sqrt (dotRange b b a.length)
    if denom = 0 then 0 else dot / denom

/-- Sum of self-products is nonnegative. -/
theorem dotRange_self_nonneg (a : List ℝ) (n : ℕ) : 0 ≤ dotRange a a n :=
  Finset.sum_nonneg fun _ _ => mul_self_nonneg _

/-- Rewriting the self-product sum as a sum of squares. -/
theorem dotRange_self_eq_sq (a : List ℝ) (n : ℕ) :
    dotRange a a n = ∑ i ∈ Finset.range n, a.getD i 0 ^ 2 :=
  Finset.sum_congr rfl fun i _ => (sq (a.getD i 0)).symm ▸ (pow_two _).symm

/-- Cauchy–Schwarz for the loop sums: `dot ≤ √normA · √normB`. -/
theorem dotRange_le (a b : List ℝ) (n : ℕ) :
    dotRange a b n ≤ Real.sqrt (dotRange a a n) * Real.sqrt (dotRange b b n) := by
  rw [dotRange, dotRange_self_eq_sq, dotRange_self_eq_sq]
  exact Real.sum_mul_le_sqrt_mul_sqrt _ _ _

/-- C9: the fact store's cosine similarity always lies in `[-1, 1]`, and is
`0` when the vectors have different lengths or when either vector has zero
norm (zero sum of squares). -/
theorem C9_cosine_similarity_range (a b : List ℝ) :
    (-1 ≤ cosineSimilarity a b ∧ cosineSimilarity a b ≤ 1) ∧
    (a.length ≠ b.length → cosineSimilarity a b = 0) ∧
    (sumSq a = 0 ∨ sumSq b = 0 → cosineSimilarity a b = 0) := by
  by_cases hlen : a.length ≠ b.length
  · simp [cosineSimilarity, hlen]
  · have hlen' : a.length = b.length := not_not.mp hlen
    by_cases hd : Real.sqrt (dotRange a a a.length) * Real.sqrt (dotRange b b a.length) = 0
    · simp [cosineSimilarity, hlen, hd]
    · have hnn : 0 ≤ Real.sqrt (dotRange a a a.length) * Real.sqrt (dotRange b b a.length) :=
        mul_nonneg (Real.sqrt_nonneg _) (Real.sqrt_nonneg _)
      have hpos : 0 < Real.sqrt (dotRange a a a.length) * Real.sqrt (dotRange b b a.length) :=
        lt_of_le_of_ne hnn (Ne.symm hd)
      have hup : dotRange a b a.length ≤
          Real.sqrt (dotRange a a a.length) * Real.sqrt (dotRange b b a.length) :=
        dotRange_le a b a.length
      have hneg : -(Real.sqrt (dotRange a a a.length) * Real.sqrt (dotRange b b a.length)) ≤
          dotRange a b a.length := by
        have h2 := dotRange_le a (b.map Neg.neg) a.length
        have hmap : ∀ i, (b.map Neg.neg).getD i 0 = -(b.getD i 0) := by
          intro i
          rcases lt_or_le i b.length with hib | hib
          · rw [List.getD_eq_getElem _ _ (by simpa using hib), List.getD_eq_getElem _ _ hib]
            simp
          · rw [List.getD_eq_default _ _ (by simpa using hib), List.getD_eq_default _ _ hib]
            simp
        have e1 : dotRange a (b.map Neg.neg) a.length = -(dotRange a b a.length) := by
          rw [dotRange, dotRange, ← Finset.sum_neg_distrib]
          refine Finset.sum_congr rfl fun i _ => ?_
          rw [hmap i]
          ring
        have e2 : dotRange (b.map Neg.neg) (b.map Neg.neg) a.length = dotRange b b a.length := by
          rw [dotRange, dotRange]
          refine Finset.sum_congr rfl fun i _ => ?_
          rw [hmap i]
          ring
        rw [e1, e2] at h2
        linarith
      refine ⟨⟨?_, ?_⟩, fun h => absurd h hlen, fun h => ?_⟩
      · simp only [cosineSimilarity, hlen, if_false, ite_not, if_neg hd]
        rw [le_div_iff₀ hpos]
        linarith
      · simp only [cosineSimilarity, hlen, if_false, ite_not, if_neg hd]
        rw [div_le_one hpos]
        exact hup
      · exfalso
        rcases h with h | h
        · rw [sumSq] at h
          rw [h, Real.sqrt_zero, zero_mul] at hd
          exact hd rfl
        · rw [sumSq] at h
          have : dotRange b b a.length = 0 := by rw [hlen']; exact h
          rw [this, Real.sqrt_zero, mul_zero] at hd
          exact hd rfl

/-- C9 witness: the theorem applied to the concrete vectors `[1]` and `[]`,
discharging both the length-mismatch and the zero-norm hypotheses. -/
theorem C9_witness :
    (-1 ≤ cosineSimilarity [(1 : ℝ)] [] ∧ cosineSimilarity [(1 : ℝ)] [] ≤ 1) ∧
    cosineSimilarity [(1 : ℝ)] [] = 0 ∧ cosineSimilarity [(1 : ℝ)] [] = 0 := by
  have h := C9_cosine_similarity_range [(1 : ℝ)] []
  refine ⟨h.1, h.2.1 (by simp), h.2.2 (Or.inr ?_)⟩
  simp [sumSq, dotRange]

/-- JS `Map.set(fact.id, fact)` on the inner per-container fact map:
overwrite in place when the id exists, else append. -/
def factUpsert (c : List AtomicFact) (f : AtomicFact) : List AtomicFact :=
  match c.findIdx? fun g => g.id == f.id with
  | some i => c.set i f
  | none => c ++ [f]

/-- The in-memory fact store (facts.ts `InMemoryFactStore`): per-container
fact lists keyed by container tag. -/
structure InMemoryFactStore where
  containers : List (String × List AtomicFact)

namespace InMemoryFactStore

/-- `addFacts`: `getContainer` creates the container if missing, then each
fact is `Map.set` into it by id. -/
def addFacts (s : InMemoryFactStore) (tag : String) (facts : List AtomicFact) :
    InMemoryFactStore :=
  ⟨setEntry s.containers tag (facts.foldl factUpsert ((s.containers.lookup tag).getD []))⟩

open Classical in
/-- `search(containerTag, queryEmbedding, limit)`: empty when the container
is missing or empty; otherwise every fact is scored with
`cosineSimilarity`, sorted by descending score (JS stable sort with
comparator `b.score - a.score`) and truncated with `slice(0, limit)`. -/
noncomputable def search (s : InMemoryFactStore) (tag : String)
    (queryEmbedding : List ℝ) (limit : ℕ) : List FactSearchResult :=
  match s.containers.lookup tag with
  | none => []
  | some c =>
    if c.isEmpty then []
    else
      let scored := c.map fun f =>
        ({ content := f.content, score := cosineSimilarity queryEmbedding f.embedding,
           sessionId := f.sessionId, date := f.date, eventDate := f.eventDate,
           factIndex := f.factIndex } : FactSearchResult)
      (scored.mergeSort fun x y => decide (y.score ≤ x.score)).take limit

/-- `save`: `null` when the container is absent, else its fact list. -/
def save (s : InMemoryFactStore) (tag : String) : Option (List AtomicFact) :=
  s.containers.lookup tag

/-- `load`: replace the container with the snapshot's facts, `Map.set` one
by one into a fresh map. -/
def load (s : InMemoryFactStore) (tag : String) (facts : List AtomicFact) :
    InMemoryFactStore :=
  ⟨setEntry s.containers tag (facts.foldl factUpsert [])⟩

/-- `hasData`: the container exists and holds at least one fact. -/
def hasData (s : InMemoryFactStore) (tag : String) : Bool :=
  0 < ((s.containers.lookup tag).getD []).length

/-- `clear`: drop the container. -/
def clear (s : InMemoryFactStore) (tag : String) : InMemoryFactStore :=
  ⟨removeEntry s.containers tag⟩

/-- `getFactCount`. -/
def getFactCount (s : InMemoryFactStore) (tag : String) : ℕ :=
  ((s.containers.lookup tag).getD []).length

end InMemoryFactStore

/-- C10: `InMemoryFactStore.search` returns at most `limit` results, sorted
in non-increasing score order, and returns the empty list when the container
does not exist or holds no facts. -/
theorem C10_fact_store_search (s : InMemoryFactStore) (tag : String)
    (q : List ℝ) (limit : ℕ) :
    (s.search tag q limit).length ≤ limit ∧
    (s.search tag q limit).Sorted (fun x y => y.score ≤ x.score) ∧
    (s.containers.lookup tag = none ∨ s.containers.lookup tag = some [] →
      s.search tag q limit = []) := by
  rcases hc : s.containers.lookup tag with _ | c
  · refine ⟨?_, ?_, fun _ => ?_⟩ <;> simp [InMemoryFactStore.search, hc]
  · by_cases he : c.isEmpty
    · refine ⟨?_, ?_, fun _ => ?_⟩ <;> simp [InMemoryFactStore.search, hc, he]
    · have hsorted :
          (List.mergeSort (c.map fun f =>
            ({ content := f.content, score := cosineSimilarity q f.embedding,
               sessionId := f.sessionId, date := f.date, eventDate := f.eventDate,
               factIndex := f.factIndex } : FactSearchResult))
            fun x y => decide (y.score ≤ x.score)).Sorted
            (fun x y => y.score ≤ x.score) := by
        have h := @List.sorted_mergeSort FactSearchResult
          (fun x y => decide (y.score ≤ x.score))
          (fun a b cc hab hbc => by
            simp only [decide_eq_true_eq] at hab hbc ⊢
            exact le_trans hbc hab)
          (fun a b => by
            simp only [Bool.or_eq_true, decide_eq_true_eq]
            exact le_total b.score a.score)
          (c.map fun f =>
            ({ content := f.content, score := cosineSimilarity q f.embedding,
               sessionId := f.sessionId, date := f.date, eventDate := f.eventDate,
               factIndex := f.factIndex } : FactSearchResult))
        refine h.imp ?_
        intro a b hab
        simpa using hab
      refine ⟨?_, ?_, fun hor => ?_⟩
      · simp only [InMemoryFactStore.search, hc, if_neg he]
        exact (List.length_take_le _ _)
      · simp only [InMemoryFactStore.search, hc, if_neg he]
        exact hsorted.sublist (List.take_sublist _ _)
      · rcases hor with h | h
        · exact absurd h (by simp)
        · simp only [Option.some.injEq] at h
          subst h
          simp at he

/-- C10 witness: the theorem applied to the empty store, where the lookup
misses and the search returns the empty list. -/
theorem C10_witness :
    ((⟨[]⟩ : InMemoryFactStore).search "t" [] 3).length ≤ 3 ∧
    (⟨[]⟩ : InMemoryFactStore).search "t" [] 3 = [] := by
  have h := C10_fact_store_search ⟨[]⟩ "t" [] 3
  exact ⟨h.1, h.2.2 (Or.inl rfl)⟩

/-! ## Reranker (`reranker.ts`)

Source: providers/rag/reranker.ts.  The LLM round trip is modelled as an
outcome oracle: the call can throw (which includes `JSON.parse` throwing
inside the `try`), the reply text can fail the `/\[[\s\S]*\]/` array match,
or it parses into a list of `{index, score}` records.  Everything after the
parse is modelled exactly. -/

/-- A search result record (search.ts `SearchResult` as used by
reranker.ts and the provider; the optional `rerankScore` is stamped on by
the reranker, `metadata` is omitted). -/
structure SearchResult where
  content : String
  score : ℝ
  vectorScore : ℝ
  bm25Score : ℝ
  sessionId : String
  chunkIndex : ℕ
  date : Option String := none
  eventDate : Option String := none
  rerankScore : Option ℝ := none

/-- One parsed `{index, score}` entry of the reranker's JSON reply. -/
structure RerankScore where
  index : ℕ
  score : ℝ

/-- Outcome of the reranker LLM call and reply parsing. -/
inductive RerankOutcome where
  | throws
  | unparsed
  | parsed (scores : List RerankScore)

/-- `scoreMap.get(i) ?? 0`: the score map is built by `Map.set` over the
parsed entries (later duplicates win), and a missing index defaults to 0. -/
def rerankScoreFor (scores : List RerankScore) (i : ℕ) : ℝ :=
  match scores.reverse.find? fun s => s.index == i with
  | some s => s.score
  | none => 0

open Classical in
/-- `rerankResults(openai, query, results, topK)`: pass-through when the
pool does not exceed `topK`; hybrid order truncated to `topK` when the call
throws or the reply has no JSON array; otherwise annotate with rerank
scores, stable-sort descending, truncate, and stamp
`score = rerankScore / 10`. -/
noncomputable def rerankResults (outcome : RerankOutcome) (query : String)
    (results : List SearchResult) (topK : ℕ) : List SearchResult :=
  if results.length ≤ topK then results
  else
    match outcome with
    | .throws => results.take topK
    | .unparsed => results.take topK
    | .parsed scores =>
      let annotated := results.enum.map fun p => (p.2, rerankScoreFor scores p.1)
      let sorted := annotated.mergeSort fun x y => decide (y.2 ≤ x.2)
      (sorted.take topK).map fun p =>
        { p.1 with rerankScore := some p.2, score := p.2 / 10 }

/-- C8: when the reranker LLM call throws or its reply cannot be parsed as
a JSON array, `rerankResults` returns the candidates in their original
hybrid order truncated to `topK` (a pool of at most `topK` is returned
whole, which equals its own truncation); and a candidate index missing from
the parsed score array gets rerank score 0. -/
theorem C8_reranker_fallback (query : String) (results : List SearchResult)
    (topK : ℕ) (scores : List RerankScore) (i : ℕ) :
    rerankResults .throws query results topK = results.take topK ∧
    rerankResults .unparsed query results topK = results.take topK ∧
    ((∀ s ∈ scores, s.index ≠ i) → rerankScoreFor scores i = 0) := by
  have htake : results.length ≤ topK → results.take topK = results := fun h =>
    List.take_of_length_le h
  refine ⟨?_, ?_, fun hmiss => ?_⟩
  · by_cases h : results.length ≤ topK
    · simp [rerankResults, h, htake h]
    · simp [rerankResults, h]
  · by_cases h : results.length ≤ topK
    · simp [rerankResults, h, htake h]
    · simp [rerankResults, h]
  · have hnone : scores.reverse.find? (fun s => s.index == i) = none := by
      rw [List.find?_eq_none]
      intro s hs
      simpa using hmiss s (List.mem_reverse.mp hs)
    simp [rerankScoreFor, hnone]

/-- C8 witness: the theorem applied to a concrete two-candidate pool with
`topK = 1` and the parsed score array `[{index := 0, score := 5}]`, which
omits index 1; candidate 1's rerank score defaults to 0. -/
theorem C8_witness :
    rerankResults .throws "q"
      [⟨"c0", 0, 0, 0, "s", 0, none, none, none⟩,
       ⟨"c1", 0, 0, 0, "s", 1, none, none, none⟩] 1 =
      [⟨"c0", 0, 0, 0, "s", 0, none, none, none⟩] ∧
    rerankScoreFor [⟨0, (5 : ℝ)⟩] 1 = 0 := by
  have h := C8_reranker_fallback "q"
    [⟨"c0", 0, 0, 0, "s", 0, none, none, none⟩,
     ⟨"c1", 0, 0, 0, "s", 1, none, none, none⟩] 1 [⟨0, (5 : ℝ)⟩] 1
  refine ⟨?_, h.2.2 ?_⟩
  · rw [h.1]
    rfl
  · intro s hs
    have : s = ⟨0, (5 : ℝ)⟩ := by simpa using hs
    rw [this]
    simp

/-! ## Hybrid search engine

Modelled from the spec: `search.ts` (the `HybridSearchEngine` owning the
per-container chunk sets and BM25 index, §4.3 of the specification) is not
among the provided sources — only its callers and tests are.  The model
below follows the specification's words: per-container `Chunk` records
keyed by id, BM25 with `k1 = 1.2`, `b = 0.75` over lowercased alphanumeric
tokens of length ≥ 2, cosine clamped to `[-1, 1]`, both min-max normalized
over the candidate pool, fused as `0.7·vector + 0.3·bm25`, ties broken by
larger vector score then lexicographically smaller id, and an empty
container returning the empty list. -/

/-- A chunk record (search.ts `Chunk` per the spec's data model;
`metadata` omitted). -/
structure Chunk where
  id : String
  content : String
  sessionId : String
  chunkIndex : ℕ
  embedding : List ℝ
  date : Option String := none
  eventDate : Option String := none

/-- JS `Map.set(chunk.id, chunk)` on a per-container chunk list. -/
def chunkUpsert (c : List Chunk) (x : Chunk) : List Chunk :=
  match c.findIdx? fun g => g.id == x.id with
  | some i => c.set i x
  | none => c ++ [x]

/-- Modelled from the spec: the hybrid engine's per-container chunk storage
(search.ts is absent from the sources). -/
structure HybridSearchEngine where
  containers : List (String × List Chunk)

/-- Modelled from the spec: the BM25 tokenizer — lowercase, strip
non-alphanumerics to whitespace, split, drop tokens of length < 2. -/
def tokenize (s : String) : List String :=
  ((splitWs ((s.toList.map cleanChar).map fun c =>
      if c.isWhitespace then ' ' else c)).filter fun w => 1 < w.length)

/-- Modelled from the spec: standard BM25 (`k1 = 1.2`, `b = 0.75`) of one
document against the query tokens, with `idf t = ln(1 + (N - df + ½)/(df + ½))`. -/
noncomputable def bm25Score (docs : List (List String)) (queryTokens doc : List String) : ℝ :=
  let N : ℝ := docs.length
  let avgdl : ℝ := (docs.map fun d => (d.length : ℝ)).sum / N
  let dl : ℝ := doc.length
  (queryTokens.map fun t =>
    let df : ℝ := (docs.filter fun d => t ∈ d).length
    let idf := Real.log (1 + (N - df + 1/2) / (df + 1/2))
    let tf : ℝ := (doc.filter fun w => w = t).length
    idf * tf * (6/5 + 1) / (tf + 6/5 * (1 - 3/4 + 3/4 * (dl / avgdl)))).sum

/-- Clamp a raw cosine into `[-1, 1]` (spec §4.3). -/
noncomputable def clampUnit (v : ℝ) : ℝ := max (-1) (min 1 v)

open Classical in
/-- Min-max normalization into `[0, 1]` across the candidate pool; a
degenerate pool (max = min) normalizes to 0. -/
noncomputable def minmax (v vmin vmax : ℝ) : ℝ :=
  if vmax = vmin then 0 else (v - vmin) / (vmax - vmin)

namespace HybridSearchEngine

/-- `addChunks`: fold each chunk into the container by id (creating the
container when missing).  Modelled from the spec: chunk ids are the
per-container keys, so re-adding an existing id replaces it. -/
def addChunks (e : HybridSearchEngine) (tag : String) (chunks : List Chunk) :
    HybridSearchEngine :=
  ⟨setEntry e.containers tag (chunks.foldl chunkUpsert ((e.containers.lookup tag).getD []))⟩

/-- `getChunksBySession(sessionId)`. -/
def getChunksBySession (e : HybridSearchEngine) (tag sessionId : String) : List Chunk :=
  ((e.containers.lookup tag).getD []).filter fun c => c.sessionId == sessionId

/-- `hasData()`. -/
def hasData (e : HybridSearchEngine) (tag : String) : Bool :=
  0 < ((e.containers.lookup tag).getD []).length

/-- `clear()`. -/
def clear (e : HybridSearchEngine) (tag : String) : HybridSearchEngine :=
  ⟨removeEntry e.containers tag⟩

/-- `save()`: `null` when the container is absent, else the chunk list. -/
def save (e : HybridSearchEngine) (tag : String) : Option (List Chunk) :=
  e.containers.lookup tag

/-- `load()`: replace the container with the snapshot's chunks. -/
def load (e : HybridSearchEngine) (tag : String) (chunks : List Chunk) :
    HybridSearchEngine :=
  ⟨setEntry e.containers tag (chunks.foldl chunkUpsert [])⟩

/-- `getChunkCount()`. -/
def getChunkCount (e : HybridSearchEngine) (tag : String) : ℕ :=
  ((e.containers.lookup tag).getD []).length

open Classical in
/-- Modelled from the spec: `search(queryEmbedding, rawQuery, k)` — score
every chunk of the container (clamped cosine and BM25, each min-max
normalized over the pool, fused `0.7/0.3`), sort by score with the spec's
deterministic tie-breaks, return the top `k`.  An empty container returns
the empty list. -/
noncomputable def search (e : HybridSearchEngine) (tag : String)
    (queryEmbedding : List ℝ) (rawQuery : String) (k : ℕ) : List SearchResult :=
  let c := (e.containers.lookup tag).getD []
  if c.isEmpty then []
  else
    let qt := tokenize rawQuery
    let docs := c.map fun ch => tokenize ch.content
    let raw := c.map fun ch =>
      (ch, clampUnit (cosineSimilarity queryEmbedding ch.embedding),
        bm25Score docs qt (tokenize ch.content))
    let vs := raw.map fun p => p.2.1
    let bs := raw.map fun p => p.2.2
    let vmin := vs.foldl min (vs.headD 0)
    let vmax := vs.foldl max (vs.headD 0)
    let bmin := bs.foldl min (bs.headD 0)
    let bmax := bs.foldl max (bs.headD 0)
    let scored := raw.map fun p =>
      (p.1, 7/10 * minmax p.2.1 vmin vmax + 3/10 * minmax p.2.2 bmin bmax,
        minmax p.2.1 vmin vmax, minmax p.2.2 bmin bmax)
    let sorted := scored.mergeSort fun x y =>
      decide (y.2.1 < x.2.1 ∨ (y.2.1 = x.2.1 ∧ (y.2.2.1 < x.2.2.1 ∨
        (y.2.2.1 = x.2.2.1 ∧ x.1.id ≤ y.1.id))))
    (sorted.take k).map fun p =>
      { content := p.1.content, score := p.2.1, vectorScore := p.2.2.1,
        bm25Score := p.2.2.2, sessionId := p.1.sessionId,
        chunkIndex := p.1.chunkIndex, date := p.1.date, eventDate := p.1.eventDate }

end HybridSearchEngine

/-! ## Parent-chunk injection

Source: providers/rag/index.ts lines 647–688 (the fact-guided injection in
`RAGProvider.search`).  The per-session chunk fetch (built there as a memo
map over the top facts' unique sessions) is passed in as the function
`chunksOf`. -/

/-- The `${sessionId}_${chunkIndex}` dedup key. -/
def resKey (sessionId : String) (chunkIndex : ℕ) : String :=
  sessionId ++ "_" ++ toString chunkIndex

/-- The dedup key of a search result. -/
def keyOf (r : SearchResult) : String := resKey r.sessionId r.chunkIndex

/-- The record pushed for an injected parent chunk: the chunk's content and
position with `score = fact.score` and placeholder sparse/dense scores. -/
def mkInjected (ch : Chunk) (score : ℝ) : SearchResult :=
  { content := ch.content, score := score, vectorScore := 0, bm25Score := 0,
    sessionId := ch.sessionId, chunkIndex := ch.chunkIndex,
    date := ch.date, eventDate := ch.eventDate }

open Classical in
/-- JS stable sort with comparator `(a, b) => b.score - a.score`. -/
noncomputable def sortByScoreDesc (l : List SearchResult) : List SearchResult :=
  l.mergeSort fun x y => decide (y.score ≤ x.score)

/-- Injection loop state: the `existingKeys` set (as the key list of the
accumulated results), the accumulated result list, and the `injected`
counter. -/
abbrev InjSt := List String × List SearchResult × ℕ

/-- The inner loop body over one chunk of a matched fact's session: skip
when the chunk's content does not contain the fact's content, skip when the
key is already present, else append. -/
noncomputable def injStep (fact : FactSearchResult) (st : InjSt) (ch : Chunk) : InjSt :=
  if containsSub ch.content.toList fact.content.toList = true then
    if resKey ch.sessionId ch.chunkIndex ∈ st.1 then st
    else (st.1 ++ [resKey ch.sessionId ch.chunkIndex],
      st.2.1 ++ [mkInjected ch fact.score], st.2.2 + 1)
  else st

/-- The outer loop body over one of the top facts. -/
noncomputable def injFact (chunksOf : String → List Chunk) (st : InjSt)
    (fact : FactSearchResult) : InjSt :=
  (chunksOf fact.sessionId).foldl (injStep fact) st

/-- Parent-chunk injection (lines 647–688): nothing happens without fact
results; otherwise the top 10 facts inject their containing parent chunks,
and the pool is re-sorted by score only when something was injected. -/
noncomputable def injectParentChunks (hybrid : List SearchResult)
    (factResults : List FactSearchResult) (chunksOf : String → List Chunk) :
    List SearchResult :=
  if factResults.isEmpty then hybrid
  else
    let st := (factResults.take 10).foldl (injFact chunksOf)
      (hybrid.map keyOf, hybrid, 0)
    if 0 < st.2.2 then sortByScoreDesc st.2.1 else st.2.1

/-- What the injection may add: a result is either an original hybrid
result, or the injected image of a chunk of a top-10 fact's session whose
content contains the fact's content and whose key was absent from the
original pool, carrying the fact's score. -/
def InjProp (hybrid : List SearchResult) (facts10 : List FactSearchResult)
    (chunksOf : String → List Chunk) (r : SearchResult) : Prop :=
  r ∈ hybrid ∨ ∃ f ∈ facts10, ∃ ch ∈ chunksOf f.sessionId,
    containsSub ch.content.toList f.content.toList = true ∧
    resKey ch.sessionId ch.chunkIndex ∉ hybrid.map keyOf ∧
    r = mkInjected ch f.score ∧ r.score = f.score

/-- Loop invariant of the injection folds. -/
def InjInv (hybrid : List SearchResult) (facts10 : List FactSearchResult)
    (chunksOf : String → List Chunk) (st : InjSt) : Prop :=
  st.1 = st.2.1.map keyOf ∧
  (∀ x ∈ hybrid.map keyOf, x ∈ st.1) ∧
  (∀ r ∈ st.2.1, InjProp hybrid facts10 chunksOf r) ∧
  ((hybrid.map keyOf).Nodup → st.1.Nodup)

/-- One inner step preserves the invariant. -/
theorem injStep_inv (hybrid : List SearchResult) (facts10 : List FactSearchResult)
    (chunksOf : String → List Chunk) (fact : FactSearchResult)
    (hf : fact ∈ facts10) (ch : Chunk) (hch : ch ∈ chunksOf fact.sessionId)
    (st : InjSt) (h : InjInv hybrid facts10 chunksOf st) :
    InjInv hybrid facts10 chunksOf (injStep fact st ch) := by
  obtain ⟨hkeys, hsup, hprop, hnd⟩ := h
  unfold injStep
  by_cases hcont : containsSub ch.content.toList fact.content.toList = true
  · rw [if_pos hcont]
    by_cases hmem : resKey ch.sessionId ch.chunkIndex ∈ st.1
    · rw [if_pos hmem]
      exact ⟨hkeys, hsup, hprop, hnd⟩
    · rw [if_neg hmem]
      refine ⟨?_, ?_, ?_, ?_⟩
      · simp [hkeys, keyOf, mkInjected, resKey]
      · intro x hx
        exact List.mem_append_left _ (hsup x hx)
      · intro r hr
        rcases List.mem_append.mp hr with hr | hr
        · exact hprop r hr
        · have hr' : r = mkInjected ch fact.score := by simpa using hr
          right
          exact ⟨fact, hf, ch, hch, hcont, fun hmem0 => hmem (hsup _ hmem0), hr', hr' ▸ rfl⟩
      · intro hnd0
        have := hnd hnd0
        simp [List.nodup_append, this, hmem]
  · rw [if_neg hcont]
    exact ⟨hkeys, hsup, hprop, hnd⟩

/-- The inner chunk fold preserves the invariant. -/
theorem injFold_inner_inv (hybrid : List SearchResult)
    (facts10 : List FactSearchResult) (chunksOf : String → List Chunk)
    (fact : FactSearchResult) (hf : fact ∈ facts10) :
    ∀ (l : List Chunk), (∀ c ∈ l, c ∈ chunksOf fact.sessionId) →
      ∀ st, InjInv hybrid facts10 chunksOf st →
        InjInv hybrid facts10 chunksOf (l.foldl (injStep fact) st) := by
  intro l
  induction l with
  | nil => intro _ st h; exact h
  | cons c t ih =>
    intro hsub st h
    exact ih (fun x hx => hsub x (List.mem_cons_of_mem _ hx))
      _ (injStep_inv hybrid facts10 chunksOf fact hf c (hsub c (List.mem_cons_self _ _)) st h)

/-- The outer fact fold preserves the invariant. -/
theorem injFold_outer_inv (hybrid : List SearchResult)
    (facts10 : List FactSearchResult) (chunksOf : String → List Chunk) :
    ∀ (l : List FactSearchResult), (∀ f ∈ l, f ∈ facts10) →
      ∀ st, InjInv hybrid facts10 chunksOf st →
        InjInv hybrid facts10 chunksOf (l.foldl (injFact chunksOf) st) := by
  intro l
  induction l with
  | nil => intro _ st h; exact h
  | cons f t ih =>
    intro hsub st h
    refine ih (fun x hx => hsub x (List.mem_cons_of_mem _ hx)) _ ?_
    exact injFold_inner_inv hybrid facts10 chunksOf f (hsub f (List.mem_cons_self _ _))
      _ (fun _ hc => hc) st h

/-- C3: parent-chunk injection considers only the top 10 facts; every
result is either an original hybrid result or an appended chunk whose
content contains its fact's content, whose key was not already in the
result set, and whose score equals the fact's score; and when the incoming
pool has pairwise-distinct `(sessionId, chunkIndex)` keys, so does the pool
after injection. -/
theorem C3_parent_chunk_injection (hybrid : List SearchResult)
    (factResults : List FactSearchResult) (chunksOf : String → List Chunk) :
    injectParentChunks hybrid factResults chunksOf =
      injectParentChunks hybrid (factResults.take 10) chunksOf ∧
    (∀ r ∈ injectParentChunks hybrid factResults chunksOf,
      InjProp hybrid (factResults.take 10) chunksOf r) ∧
    ((hybrid.map keyOf).Nodup →
      ((injectParentChunks hybrid factResults chunksOf).map keyOf).Nodup) := by
  have hinv := injFold_outer_inv hybrid (factResults.take 10) chunksOf
    (factResults.take 10) (fun _ h => h) (hybrid.map keyOf, hybrid, 0)
    ⟨rfl, fun _ h => h, fun r hr => Or.inl hr, fun h => h⟩
  refine ⟨?_, ?_, ?_⟩
  · unfold injectParentChunks
    by_cases he : factResults.isEmpty
    · have : factResults.take 10 = [] := by
        rcases List.isEmpty_iff.mp he with rfl
        rfl
      simp [he, this]
    · have he' : ¬ (factResults.take 10).isEmpty := by
        rcases factResults with _ | ⟨f, t⟩
        · simp at he
        · simp [List.take_succ_cons]
      rw [if_neg he, if_neg he', List.take_take]
      norm_num
  · intro r hr
    unfold injectParentChunks at hr
    by_cases he : factResults.isEmpty
    · rw [if_pos he] at hr
      exact Or.inl hr
    · rw [if_neg he] at hr
      obtain ⟨-, -, hprop, -⟩ := hinv
      by_cases hi : 0 < ((factResults.take 10).foldl (injFact chunksOf)
          (hybrid.map keyOf, hybrid, 0)).2.2
      · rw [if_pos hi] at hr
        have hperm := List.mergeSort_perm (((factResults.take 10).foldl (injFact chunksOf)
          (hybrid.map keyOf, hybrid, 0)).2.1) fun x y => decide (y.score ≤ x.score)
        exact hprop r (hperm.mem_iff.mp hr)
      · rw [if_neg hi] at hr
        exact hprop r hr
  · intro hnd
    obtain ⟨hkeys, -, -, hndk⟩ := hinv
    have haccnd : (((factResults.take 10).foldl (injFact chunksOf)
        (hybrid.map keyOf, hybrid, 0)).2.1.map keyOf).Nodup := hkeys ▸ hndk hnd
    unfold injectParentChunks
    by_cases he : factResults.isEmpty
    · rw [if_pos he]
      exact hnd
    · rw [if_neg he]
      by_cases hi : 0 < ((factResults.take 10).foldl (injFact chunksOf)
          (hybrid.map keyOf, hybrid, 0)).2.2
      · rw [if_pos hi]
        have hperm := List.mergeSort_perm (((factResults.take 10).foldl (injFact chunksOf)
          (hybrid.map keyOf, hybrid, 0)).2.1) fun x y => decide (y.score ≤ x.score)
        exact ((hperm.map keyOf).nodup_iff).mpr haccnd
      · rw [if_neg hi]
        exact haccnd

/-- C3 witness: the theorem applied to an empty pool with a single fact
whose session has a single containing chunk; the injected result carries
the fact's score and the key set stays duplicate-free. -/
theorem C3_witness :
    (∀ r ∈ injectParentChunks [] [⟨"berlin", (2 : ℝ), "s1", none, none, 0⟩]
        (fun _ => [⟨"c1", "in berlin today", "s1", 0, [], none, none⟩]),
      InjProp [] ([⟨"berlin", (2 : ℝ), "s1", none, none, 0⟩].take 10)
        (fun _ => [⟨"c1", "in berlin today", "s1", 0, [], none, none⟩]) r) ∧
    ((injectParentChunks [] [⟨"berlin", (2 : ℝ), "s1", none, none, 0⟩]
        (fun _ => [⟨"c1", "in berlin today", "s1", 0, [], none, none⟩])).map keyOf).Nodup := by
  have h := C3_parent_chunk_injection [] [⟨"berlin", (2 : ℝ), "s1", none, none, 0⟩]
    (fun _ => [⟨"c1", "in berlin today", "s1", 0, [], none, none⟩])
  exact ⟨h.2.1, h.2.2 (by simp)⟩

/-! ## Sessions, extraction output, and the entity graph -/

/-- One conversation turn. -/
structure Message where
  role : String
  content : String

/-- A conversation session (`UnifiedSession`; the optional ISO date lives
in `metadata.date` in the source and is modelled as a direct field). -/
structure Session where
  sessionId : String
  messages : List Message := []
  date : Option String := none

/-- A parsed entity from the extractor payload. -/
structure ParsedEntity where
  name : String
  type : String
  summary : String

/-- A parsed relationship from the extractor payload. -/
structure ParsedRel where
  source : String
  target : String
  relation : String
  date : Option String := none

/-- The parsed extractor payload (`parseExtractionOutput` result):
`memoriesText` plus entities and relationships. -/
structure ParsedExtraction where
  memoriesText : String
  entities : List ParsedEntity := []
  relationships : List ParsedRel := []

/-- A graph node (spec data model: normalized name is the canonical key). -/
structure EntityNode where
  name : String
  type : String
  summary : String
  sessionIds : List String

/-- A labeled graph edge. -/
structure GraphEdge where
  source : String
  target : String
  relation : String
  date : Option String := none
  sessionId : String

/-- Modelled from the spec: the per-container entity graph (graph.ts is
absent from the sources); a labeled directed multigraph as node and edge
lists. -/
structure EntityGraph where
  nodes : List EntityNode := []
  edges : List GraphEdge := []

/-- Modelled from the spec: entity names are lowercased and
underscore-normalized. -/
def normalizeName (s : String) : String :=
  String.mk (s.toList.map fun c => if c.toLower = ' ' then '_' else c.toLower)

/-- Modelled from the spec: `addEntity` creates or merges — on merge the
new summary is appended when it adds content, session ids are unioned, the
first-seen type is kept. -/
def addEntity (g : EntityGraph) (name type summary sessionId : String) : EntityGraph :=
  let n := normalizeName name
  match g.nodes.findIdx? fun e => e.name == n with
  | some i =>
    let e := g.nodes.getD i ⟨n, type, summary, []⟩
    let newSummary :=
      if containsSub e.summary.toList summary.toList then e.summary
      else e.summary ++ " " ++ summary
    let newSessions :=
      if sessionId ∈ e.sessionIds then e.sessionIds else e.sessionIds ++ [sessionId]
    { g with nodes := g.nodes.set i { e with summary := newSummary, sessionIds := newSessions } }
  | none => { g with nodes := g.nodes ++ [⟨n, type, summary, [sessionId]⟩] }

/-- Modelled from the spec: `addRelationship` deduplicates on
`(source, relation, target, sessionId)`. -/
def addRelationship (g : EntityGraph) (r : GraphEdge) : EntityGraph :=
  let r' := { r with source := normalizeName r.source, target := normalizeName r.target }
  if g.edges.any fun e =>
      e.source == r'.source && e.relation == r'.relation &&
      e.target == r'.target && e.sessionId == r'.sessionId then g
  else { g with edges := g.edges ++ [r'] }

/-- The nodes and edges returned by a bounded graph traversal. -/
structure GraphSearchResult where
  entities : List EntityNode := []
  relationships : List GraphEdge := []

/-! ## Provider state and oracles

Source: providers/rag/index.ts (`RAGProvider`, the in-memory backend; the
PostgreSQL branch is out of scope).  All external I/O — the extractor LLM,
the embedder, the profile/decompose/rerank LLMs and the graph traversal
internals (graph.ts is absent) — is abstracted as deterministic oracle
functions; `Except Unit` models a call that can reject.  The embedder retry
loops (two retries with backoff) collapse against a deterministic oracle
and are modelled as a single call, and the `Promise.all` fan-outs as
left-to-right sequencing (per-session single-flight deduplication and the
extraction semaphore make this equivalent for deterministic oracles). -/

/-- Oracles for every external collaborator of the provider. -/
structure ProviderOracles where
  extractMemories : Session → Except Unit String
  parseExtractionOutput : String → ParsedExtraction
  embedMany : List String → Except Unit (List (List ℝ))
  embedQuery : String → List ℝ
  profileText : String → Option String
  decomposeQuery : String → List String
  graphContext : EntityGraph → String → Option GraphSearchResult
  rerankOutcome : String → List SearchResult → RerankOutcome

/-- A per-container snapshot directory: up to four JSON files, each
modelled as present (`some`) or absent. -/
structure DiskSnapshot where
  searchData : Option (List Chunk) := none
  graphData : Option EntityGraph := none
  factsData : Option (List AtomicFact) := none
  profileData : Option UserProfile := none

/-- The provider's mutable state: in-memory indices, extraction cache, and
the on-disk snapshot directories. -/
structure RAGState where
  searchEngine : HybridSearchEngine := ⟨[]⟩
  factStore : InMemoryFactStore := ⟨[]⟩
  graphs : List (String × EntityGraph) := []
  profiles : List (String × UserProfile) := []
  extractionCache : List (String × String) := []
  disk : List (String × DiskSnapshot) := []

/-- `RAGProvider.clear` (in-memory backend): drop the container's search
index, fact store, graph and profile.  The on-disk snapshot is not
touched — the source deletes no files. -/
def clearOp (σ : RAGState) (tag : String) : RAGState :=
  { σ with searchEngine := σ.searchEngine.clear tag,
           factStore := σ.factStore.clear tag,
           graphs := removeEntry σ.graphs tag,
           profiles := removeEntry σ.profiles tag }

/-- `saveToCache`: serialize whatever exists (search index when the
container exists, graph when non-empty, facts when the store has the
container, profile when non-empty) and write only those files; files not
written keep their previous content. -/
def saveToCacheOp (σ : RAGState) (tag : String) : RAGState :=
  let old := (σ.disk.lookup tag).getD ⟨none, none, none, none⟩
  let searchJson := σ.searchEngine.save tag
  let graphJson := match σ.graphs.lookup tag with
    | some g => if 0 < g.nodes.length then some g else none
    | none => none
  let factsJson := σ.factStore.save tag
  let profileJson := match σ.profiles.lookup tag with
    | some p => if p.facts.isEmpty then none else some p
    | none => none
  let snap : DiskSnapshot :=
    { searchData := searchJson.orElse fun _ => old.searchData,
      graphData := graphJson.orElse fun _ => old.graphData,
      factsData := factsJson.orElse fun _ => old.factsData,
      profileData := profileJson.orElse fun _ => old.profileData }
  { σ with disk := setEntry σ.disk tag snap }

/-- `doLoadFromCache`: missing directory or missing `search.json` yields
`false` without mutation; otherwise the search index is loaded and the
optional graph / facts / profile files replace their components. -/
def loadFromCacheOp (σ : RAGState) (tag : String) : RAGState × Bool :=
  match σ.disk.lookup tag with
  | none => (σ, false)
  | some snap =>
    match snap.searchData with
    | none => (σ, false)
    | some chunks =>
      let σ1 := { σ with searchEngine := σ.searchEngine.load tag chunks }
      let σ2 := match snap.graphData with
        | some g => { σ1 with graphs := setEntry σ1.graphs tag g }
        | none => σ1
      let σ3 := match snap.factsData with
        | some fd => { σ2 with factStore := σ2.factStore.load tag fd }
        | none => σ2
      let σ4 := match snap.profileData with
        | some p => { σ3 with profiles := setEntry σ3.profiles tag p }
        | none => σ3
      (σ4, true)

/-! ## Ingest -/

/-- The cached/deduplicated extraction phase (`extractSession` + the
batched `Promise.all` loop): sequentially, each session's raw extraction is
served from the cache by `sessionId` or requested from the extractor and
cached; a rejection aborts the phase. -/
def extractPhase (extract : Session → Except Unit String) :
    List Session → List (String × String) →
    Except Unit (List String × List (String × String))
  | [], cache => .ok ([], cache)
  | s :: rest, cache =>
    match cache.lookup s.sessionId with
    | some raw =>
      (extractPhase extract rest cache).map fun p => (raw :: p.1, p.2)
    | none =>
      match extract s with
      | .error e => .error e
      | .ok raw =>
        (extractPhase extract rest (setEntry cache s.sessionId raw)).map fun p =>
          (raw :: p.1, p.2)

/-- `String.trim` on `String`. -/
def jsTrimStr (s : String) : String := String.mk (jsTrim s.toList)

/-- JS `String.prototype.split` on a one-character separator. -/
def jsSplitChar (s : String) (sep : Char) : List String :=
  (s.toList.splitOn sep).map String.mk

/-- `metadata.date` handling: empty/missing dates become `"unknown"`, an
ISO timestamp is cut at `"T"`. -/
def dateStrOf (s : Session) : String :=
  match s.date with
  | some d => if d.isEmpty then "unknown" else (jsSplitChar d 'T').headD d
  | none => "unknown"

/-- Shape check `dddd-dd-dd` of the bracketed event-date scan. -/
def isDateShape (l : List Char) : Bool :=
  match l with
  | [a, b, c, d, e, f, g, h, i, j] =>
    a.isDigit && b.isDigit && c.isDigit && d.isDigit && e = '-' &&
    f.isDigit && g.isDigit && h = '-' && i.isDigit && j.isDigit
  | _ => false

/-- All matches of `/\[(\d{4}-\d{2}-\d{2})\]/g`, without the brackets. -/
def eventDatesIn (cs : List Char) : List String :=
  (List.range cs.length).filterMap fun i =>
    let w := (cs.drop i).take 12
    if w.length = 12 ∧ w.headD ' ' = '[' ∧ w.getLast? = some ']' ∧
        isDateShape ((w.drop 1).take 10) then
      some (String.mk ((w.drop 1).take 10))
    else none

/-- Stable insertion of one element into a sorted list. -/
def insertSorted {α : Type} (le : α → α → Bool) (x : α) : List α → List α
  | [] => [x]
  | h :: t => if le x h then x :: h :: t else h :: insertSorted le x t

/-- A stable structural sort (insertion sort), modelling JS
`Array.prototype.sort`. -/
def insertionSort {α : Type} (le : α → α → Bool) : List α → List α
  | [] => []
  | h :: t => insertSorted le h (insertionSort le t)

/-- `eventDatesInChunk.sort()[0]`: the lexicographically smallest bracketed
date of a chunk, if any. -/
def chunkEventDate (text : List Char) : Option String :=
  (insertionSort (fun a b => !decide (b < a)) (eventDatesIn text)).head?

/-- The fact-line match `/^\[(\d{4}-\d{2}-\d{2})\]/`. -/
def factEventDate (line : List Char) : Option String :=
  let w := line.take 12
  if w.length = 12 ∧ w.headD ' ' = '[' ∧ w.getLast? = some ']' ∧
      isDateShape ((w.drop 1).take 10) then
    some (String.mk ((w.drop 1).take 10))
  else none

/-- A chunk awaiting embedding. -/
structure PendingChunk where
  text : String
  sessionId : String
  chunkIndex : ℕ
  date : String
  eventDate : Option String := none

/-- A fact line awaiting embedding. -/
structure PendingFact where
  text : String
  sessionId : String
  date : String
  eventDate : Option String := none
  factIndex : ℕ

/-- Chunk construction for one session:
`"# Memories from <date>\n\n" + memoriesText` run through `chunkText`
(default 1600/320); the fuel `length + 2` is exact — a JS run terminates
iff it terminates within that many iterations, so `none` models the
non-terminating corner of `chunkText` as a rejection. -/
def buildSessionChunks (p : Session × ParsedExtraction × String) :
    Except Unit (List PendingChunk) :=
  let content := "# Memories from " ++ p.2.2 ++ "\n\n" ++ p.2.1.memoriesText
  match chunkText (content.toList.length + 2) content.toList 1600 320 with
  | none => .error ()
  | some cs => .ok (cs.enum.map fun q =>
      { text := String.mk q.2, sessionId := p.1.sessionId, chunkIndex := q.1,
        date := p.2.2, eventDate := chunkEventDate q.2 })

/-- All chunks of the batch, in session order. -/
def buildAllChunks : List (Session × ParsedExtraction × String) →
    Except Unit (List PendingChunk)
  | [] => .ok []
  | p :: rest =>
    match buildSessionChunks p, buildAllChunks rest with
    | .ok a, .ok b => .ok (a ++ b)
    | .error e, _ => .error e
    | _, .error e => .error e

/-- Raw atomic facts: the trimmed lines of `memoriesText` longer than five
characters, indexed per session. -/
def buildRawFacts (parsed : List (Session × ParsedExtraction × String)) :
    List PendingFact :=
  (parsed.map fun p =>
    let lines := ((jsSplitChar p.2.1.memoriesText '\n').map jsTrimStr).filter
      fun l => 5 < l.length
    lines.enum.map fun q =>
      { text := q.2, sessionId := p.1.sessionId, date := p.2.2,
        eventDate := factEventDate q.2.toList, factIndex := q.1 }).flatten

/-- Structural worker for the batching below: the fuel is an upper bound
on the number of batches (dropping 100 from a non-empty list shrinks it). -/
def batchesGo {α : Type} : ℕ → List α → List (List α)
  | 0, _ => []
  | _, [] => []
  | fuel + 1, l@(_ :: _) => l.take 100 :: batchesGo fuel (l.drop 100)

/-- `EMBEDDING_BATCH_SIZE = 100` batching. -/
def listBatches {α : Type} (l : List α) : List (List α) :=
  batchesGo l.length l

/-- Embed the chunk batches and build the committed `Chunk` records with
ids `containerTag_sessionId_chunkIndex`. -/
def embedChunksBatched (O : ProviderOracles) (tag : String)
    (allChunks : List PendingChunk) : Except Unit (List Chunk) :=
  (listBatches allChunks).foldlM (fun acc batch =>
    match O.embedMany (batch.map fun c => c.text) with
    | .error e => .error e
    | .ok embeddings => .ok (acc ++ batch.enum.map fun q =>
        ({ id := tag ++ "_" ++ q.2.sessionId ++ "_" ++ toString q.2.chunkIndex,
           content := q.2.text, sessionId := q.2.sessionId,
           chunkIndex := q.2.chunkIndex, embedding := embeddings.getD q.1 [],
           date := some q.2.date, eventDate := q.2.eventDate } : Chunk))) []

/-- Embed the fact batches and build the `AtomicFact` records with ids
`containerTag_sessionId_fact_factIndex`. -/
def embedFactsBatched (O : ProviderOracles) (tag : String)
    (rawFacts : List PendingFact) : Except Unit (List AtomicFact) :=
  (listBatches rawFacts).foldlM (fun acc batch =>
    match O.embedMany (batch.map fun f => f.text) with
    | .error e => .error e
    | .ok embeddings => .ok (acc ++ batch.enum.map fun q =>
        ({ id := tag ++ "_" ++ q.2.sessionId ++ "_fact_" ++ toString q.2.factIndex,
           content := q.2.text, sessionId := q.2.sessionId, date := some q.2.date,
           eventDate := q.2.eventDate, factIndex := q.2.factIndex,
           embedding := embeddings.getD q.1 [] } : AtomicFact))) []

/-- `^[-*\d.)\s]+` marker stripping plus trim of a profile line. -/
def stripListMarkers (s : String) : String :=
  String.mk (jsTrim (s.toList.dropWhile fun c =>
    c = '-' ∨ c = '*' ∨ c.isDigit ∨ c = '.' ∨ c = ')' ∨ c.isWhitespace))

/-- `buildProfile` (profile.ts) with the LLM call abstracted: empty input
or a failed call keeps the existing profile; otherwise the reply lines are
stripped and length-filtered, and merged into a non-empty existing
profile. -/
def buildProfile (profileText : String → Option String) (memoriesText : String)
    (existing : Option UserProfile) : UserProfile :=
  if (jsTrimStr memoriesText).isEmpty then existing.getD ⟨[]⟩
  else
    match profileText memoriesText with
    | none => existing.getD ⟨[]⟩
    | some text =>
      let facts := ((jsSplitChar (jsTrimStr text) '\n').map stripListMarkers).filter
        fun l => 3 < l.length ∧ l.length < 300
      if facts.isEmpty then existing.getD ⟨[]⟩
      else
        match existing with
        | some ex => if ex.facts.isEmpty then ⟨facts⟩ else mergeProfiles ex ⟨facts⟩
        | none => ⟨facts⟩

/-- `formatProfileContext`. -/
def formatProfileContext (p : UserProfile) : String :=
  if p.facts.isEmpty then ""
  else "<user_profile>\n" ++
    String.intercalate "\n" (p.facts.map fun f => "- " ++ f) ++ "\n</user_profile>"

/-- `buildProfileAsync`: build/merge the profile from the batch's
concatenated memories and store it when non-empty. -/
def buildProfileStep (O : ProviderOracles)
    (parsed : List (Session × ParsedExtraction × String)) (tag : String)
    (σ : RAGState) : RAGState :=
  let allMemoriesText := String.intercalate "\n\n" (parsed.map fun p => p.2.1.memoriesText)
  let profile := buildProfile O.profileText allMemoriesText (σ.profiles.lookup tag)
  if 0 < profile.facts.length then
    { σ with profiles := setEntry σ.profiles tag profile }
  else σ

/-- `getGraph(containerTag)` as used at the top of `ingest`: ensure the
per-container graph entry exists. -/
def ensureGraph (σ : RAGState) (tag : String) : RAGState :=
  match σ.graphs.lookup tag with
  | some _ => σ
  | none => { σ with graphs := setEntry σ.graphs tag ⟨[], []⟩ }

/-- `RAGProvider.ingest` (in-memory backend): cached extraction, graph
writes, chunk/fact construction, batched embedding, commit, profile build,
snapshot; returns the new chunk ids. -/
def ingestOp (O : ProviderOracles) (σ : RAGState) (sessions : List Session)
    (tag : String) : Except Unit (List String × RAGState) :=
  let σa := ensureGraph σ tag
  match extractPhase O.extractMemories sessions σa.extractionCache with
  | .error e => .error e
  | .ok (raws, cache') =>
    let σb := { σa with extractionCache := cache' }
    let parsed := (sessions.zip raws).map fun p =>
      (p.1, O.parseExtractionOutput p.2, dateStrOf p.1)
    let g0 := (σb.graphs.lookup tag).getD ⟨[], []⟩
    let g1 := parsed.foldl (fun g p =>
      let ge := p.2.1.entities.foldl
        (fun g e => addEntity g e.name e.type e.summary p.1.sessionId) g
      p.2.1.relationships.foldl
        (fun g r => addRelationship g ⟨r.source, r.target, r.relation, r.date, p.1.sessionId⟩)
        ge) g0
    let σc := { σb with graphs := setEntry σb.graphs tag g1 }
    match buildAllChunks parsed with
    | .error e => .error e
    | .ok allChunks =>
      let rawFacts := buildRawFacts parsed
      if allChunks.isEmpty then .ok ([], σc)
      else
        match embedChunksBatched O tag allChunks with
        | .error e => .error e
        | .ok embeddedChunks =>
          let σd := { σc with searchEngine := σc.searchEngine.addChunks tag embeddedChunks }
          match (if rawFacts.isEmpty then Except.ok σd else
            match embedFactsBatched O tag rawFacts with
            | .error e => .error e
            | .ok embeddedFacts =>
              .ok { σd with factStore := σd.factStore.addFacts tag embeddedFacts }) with
          | .error e => .error e
          | .ok σe =>
            let σf := buildProfileStep O parsed tag σe
            let σg := saveToCacheOp σf tag
            .ok (embeddedChunks.map fun c => c.id, σg)

/-! ## Search -/

/-- Modelled from the spec: `isCountingQuery` (decompose.ts is absent)
matches "how many", "count", "number of", "total". -/
def isCountingQuery (q : String) : Bool :=
  let lq := q.toList.map Char.toLower
  containsSub lq "how many".toList || containsSub lq "count".toList ||
  containsSub lq "number of".toList || containsSub lq "total".toList

/-- `options.limit || 10`: zero is falsy in JS. -/
def jsOrNat (o : Option ℕ) (d : ℕ) : ℕ :=
  match o with
  | some n => if n = 0 then d else n
  | none => d

/-- One heterogeneous search response record, discriminated by the `_type`
tag in the source. -/
inductive ResultRecord where
  | chunk (r : SearchResult)
  | entity (e : EntityNode)
  | relEdge (r : GraphEdge)
  | profileRec (text : String)

/-- The counting-query merge: hybrid-search each sub-query after the first,
union the results into the pool by `(sessionId, chunkIndex)` key, and
re-sort by score. -/
noncomputable def countingMerge (O : ProviderOracles) (σ1 : RAGState)
    (tag : String) (overfetchLimit : ℕ) (hybrid : List SearchResult)
    (subQueries : List String) : List SearchResult :=
  let subResults := (subQueries.drop 1).map fun sq =>
    σ1.searchEngine.search tag (O.embedQuery sq) sq overfetchLimit
  let st := subResults.foldl (fun st rs =>
    rs.foldl (fun (st : List String × List SearchResult) r =>
      if keyOf r ∈ st.1 then st else (st.1 ++ [keyOf r], st.2 ++ [r])) st)
    (hybrid.map keyOf, hybrid)
  sortByScoreDesc st.2

/-- `RAGProvider.search` (in-memory backend): embed the query, lazily load
the container snapshot when the engine has no data for the tag, fact
search + hybrid search + graph context, fact-session boost, parent-chunk
injection, counting-query decomposition, optional rerank, and assembly of
the heterogeneous record list (chunks, graph nodes/edges, profile). -/
noncomputable def searchOp (O : ProviderOracles) (σ : RAGState) (query : String)
    (tag : String) (limitOpt : Option ℕ) : List ResultRecord × RAGState :=
  let queryEmbedding := O.embedQuery query
  let limit := jsOrNat limitOpt 10
  let overfetchLimit := max limit 40
  let σ1 := if σ.searchEngine.hasData tag then σ else (loadFromCacheOp σ tag).1
  let factResults := σ1.factStore.search tag queryEmbedding 30
  let factSessions := (factResults.map fun f => f.sessionId).dedup
  let hybrid0 := σ1.searchEngine.search tag queryEmbedding query overfetchLimit
  let graphResult := match σ1.graphs.lookup tag with
    | some g => if 0 < g.nodes.length then O.graphContext g query else none
    | none => none
  let hybrid1 :=
    if factSessions.isEmpty then hybrid0
    else sortByScoreDesc (hybrid0.map fun r =>
      if r.sessionId ∈ factSessions then { r with score := r.score + 1/10 } else r)
  let hybrid2 := injectParentChunks hybrid1 factResults
    fun sid => σ1.searchEngine.getChunksBySession tag sid
  let hybrid3 :=
    if isCountingQuery query then
      countingMerge O σ1 tag overfetchLimit hybrid2 (O.decomposeQuery query)
    else hybrid2
  let finalChunks :=
    if limit < hybrid3.length then
      rerankResults (O.rerankOutcome query hybrid3) query hybrid3 limit
    else hybrid3
  let combined := (finalChunks.map ResultRecord.chunk)
    ++ (match graphResult with
        | some gr => (gr.entities.map ResultRecord.entity)
            ++ (gr.relationships.map ResultRecord.relEdge)
        | none => [])
    ++ (match σ1.profiles.lookup tag with
        | some p =>
          if p.facts.isEmpty then [] else [ResultRecord.profileRec (formatProfileContext p)]
        | none => [])
  (combined, σ1)

/-! ## Map and upsert lemmas -/

/-- Unfolding `setEntry` one entry at a time. -/
theorem setEntry_cons {α : Type} (a : String) (b : α) (t : List (String × α))
    (k : String) (v : α) :
    setEntry ((a, b) :: t) k v =
      if a == k then (k, v) :: t else (a, b) :: setEntry t k v := by
  unfold setEntry
  rw [List.findIdx?_cons]
  by_cases h : a == k
  · simp [h]
  · simp only [h, if_false]
    rcases hf : t.findIdx? fun e => e.1 == k with _ | i
    · simp [hf, Bool.not_eq_true] at h ⊢
    · simp [hf, Bool.not_eq_true] at h ⊢

/-- Lookup after `setEntry`: the set key maps to the new value, all other
keys are unchanged. -/
theorem lookup_setEntry {α : Type} (m : List (String × α)) (k k' : String) (v : α) :
    (setEntry m k v).lookup k' = if k' = k then some v else m.lookup k' := by
  induction m with
  | nil =>
    by_cases h : k' = k
    · simp [setEntry, h]
    · simp [setEntry, List.lookup_cons, h, (by simpa using h : (k' == k) = false)]
  | cons e t ih =>
    obtain ⟨a, b⟩ := e
    rw [setEntry_cons]
    by_cases hak : a == k
    · have hak' : a = k := by simpa using hak
      rw [if_pos hak]
      by_cases h : k' = k
      · simp [List.lookup_cons, h]
      · simp [List.lookup_cons, h, (by simpa using h : (k' == k) = false), hak',
          (by simpa [hak'] using h : (k' == a) = false)]
    · rw [if_neg hak]
      by_cases hka : k' = a
      · have h1 : (k' == a) = true := by simpa using hka
        have hne : ¬ k' = k := by
          intro hkk
          exact hak (by simpa using (hkk ▸ hka).symm)
        simp [List.lookup_cons, h1, hne]
      · have h0 : (k' == a) = false := by simpa using hka
        simp [List.lookup_cons, h0, ih]

/-- The key just set is present. -/
theorem lookup_setEntry_self {α : Type} (m : List (String × α)) (k : String) (v : α) :
    (setEntry m k v).lookup k = some v := by
  rw [lookup_setEntry]
  simp

/-! ## Extraction phase lemmas -/

/-- If some session of the batch shares its id with an uncached session on
which the extractor fails (and so do all sessions with that id), the whole
extraction phase rejects. -/
theorem extractPhase_error_of_fail (extract : Session → Except Unit String) :
    ∀ (ss : List Session) (cache : List (String × String)) (s : Session),
      s ∈ ss → cache.lookup s.sessionId = none →
      (∀ t ∈ ss, t.sessionId = s.sessionId → extract t = .error ()) →
      extractPhase extract ss cache = .error () := by
  intro ss
  induction ss with
  | nil => intro cache s hs; simp at hs
  | cons h t ih =>
    intro cache s hs hnc hfail
    rcases hl : cache.lookup h.sessionId with _ | raw
    · rcases he : extract h with e | raw
      · cases e
        simp [extractPhase, hl, he]
      · have hne : h.sessionId ≠ s.sessionId := by
          intro heq
          rw [hfail h (List.mem_cons_self _ _) heq] at he
          cases he
        have hs' : s ∈ t := by
          rcases List.mem_cons.mp hs with rfl | hs'
          · exact absurd rfl hne
          · exact hs'
        have hrec := ih (setEntry cache h.sessionId raw) s hs'
          (by rw [lookup_setEntry, if_neg (Ne.symm hne)]; exact hnc)
          (fun u hu => hfail u (List.mem_cons_of_mem _ hu))
        simp [extractPhase, hl, he, hrec, Except.map]
    · have hne : h.sessionId ≠ s.sessionId := by
        intro heq
        rw [heq, hnc] at hl
        cases hl
      have hs' : s ∈ t := by
        rcases List.mem_cons.mp hs with rfl | hs'
        · exact absurd rfl hne
        · exact hs'
      have hrec := ih cache s hs' hnc fun u hu => hfail u (List.mem_cons_of_mem _ hu)
      simp [extractPhase, hl, hrec, Except.map]

/-- C2 (amended): an extractor failure on any session of the batch (not
served from the extraction cache, and failing for every batch session
carrying that id) rejects the whole `ingest` call: no session is skipped,
nothing is committed, and no chunk ids are returned.  The claimed
per-session skip-and-continue behaviour does not exist — the batch loop
awaits `Promise.all` with no per-session error handling. -/
theorem C2_extractor_failure_aborts (O : ProviderOracles) (sessions : List Session)
    (tag : String) (σ : RAGState) (s : Session) (hs : s ∈ sessions)
    (hnc : σ.extractionCache.lookup s.sessionId = none)
    (hfail : ∀ t ∈ sessions, t.sessionId = s.sessionId →
      O.extractMemories t = .error ()) :
    ingestOp O σ sessions tag = .error () := by
  have hphase := extractPhase_error_of_fail O.extractMemories sessions
  have hcache : (ensureGraph σ tag).extractionCache = σ.extractionCache := by
    unfold ensureGraph
    split <;> rfl
  simp only [ingestOp]
  rw [hcache, hphase _ s hs hnc hfail]

/-- Concrete oracles for the C2 counterexample: the extractor rejects
session `"a"` and succeeds on every other session. -/
noncomputable def c2Oracles : ProviderOracles :=
  { extractMemories := fun s =>
      if s.sessionId = "a" then .error () else .ok "good session memories",
    parseExtractionOutput := fun raw => { memoriesText := raw },
    embedMany := fun ts => .ok (ts.map fun _ => [1]),
    embedQuery := fun _ => [1],
    profileText := fun _ => none,
    decomposeQuery := fun _ => [],
    graphContext := fun _ _ => none,
    rerankOutcome := fun _ _ => .throws }

/-- C2 counterexample: a batch of two sessions where the extractor fails
only on session `"a"` makes the whole `ingest` reject — it does not skip
session `"a"` and return the chunk ids of session `"b"` as the claim
states. -/
theorem C2_counterexample :
    ingestOp c2Oracles {} [⟨"a", [], none⟩, ⟨"b", [], none⟩] "t" = .error () ∧
    ∀ ids σ', ingestOp c2Oracles {} [⟨"a", [], none⟩, ⟨"b", [], none⟩] "t" ≠
      .ok (ids, σ') := by
  refine ⟨rfl, fun ids σ' hok => ?_⟩
  rw [(rfl : ingestOp c2Oracles {} [⟨"a", [], none⟩, ⟨"b", [], none⟩] "t" =
    .error ())] at hok
  exact Except.noConfusion hok

/-- C2 witness: the amended theorem applied at the concrete failing batch,
discharging the membership, cache-miss and failure hypotheses. -/
theorem C2_witness :
    ingestOp c2Oracles {} [⟨"a", [], none⟩, ⟨"b", [], none⟩] "t" = .error () := by
  refine C2_extractor_failure_aborts c2Oracles [⟨"a", [], none⟩, ⟨"b", [], none⟩]
    "t" {} ⟨"a", [], none⟩ (List.mem_cons_self _ _) rfl ?_
  intro t ht hid
  rcases List.mem_cons.mp ht with rfl | ht'
  · rfl
  · have : t = ⟨"b", [], none⟩ := by simpa using ht'
    rw [this] at hid
    exact absurd hid (by decide)

/-! ## Chunk upsert lemmas (for the re-ingest claim) -/

/-- Unfolding `chunkUpsert` one chunk at a time. -/
theorem chunkUpsert_cons (g : Chunk) (t : List Chunk) (x : Chunk) :
    chunkUpsert (g :: t) x =
      if g.id == x.id then x :: t else g :: chunkUpsert t x := by
  unfold chunkUpsert
  rw [List.findIdx?_cons]
  by_cases h : g.id == x.id
  · simp [h]
  · simp only [h, if_false]
    rcases hf : t.findIdx? fun q => q.id == x.id with _ | i
    · simp [hf, Bool.not_eq_true] at h ⊢
    · simp [hf, Bool.not_eq_true] at h ⊢

theorem chunkUpsert_self_mem (c : List Chunk) (x : Chunk) :
    x.id ∈ (chunkUpsert c x).map Chunk.id := by
  induction c with
  | nil => simp [chunkUpsert]
  | cons g t ih =>
    rw [chunkUpsert_cons]
    by_cases h : g.id = x.id
    · simp [h]
    · simp [h, ih]

theorem chunkUpsert_length_of_mem (c : List Chunk) (x : Chunk)
    (hx : x.id ∈ c.map Chunk.id) : (chunkUpsert c x).length = c.length := by
  induction c with
  | nil => simp at hx
  | cons g t ih =>
    rw [chunkUpsert_cons]
    by_cases h : g.id = x.id
    · simp [h]
    · rcases (by simpa using hx : x.id = g.id ∨ x.id ∈ t.map Chunk.id) with heq | hx'
      · exact absurd heq.symm h
      · simp [h, ih hx']


theorem chunkUpsert_id_mem (c : List Chunk) (x : Chunk) (y : String)
    (hy : y ∈ c.map Chunk.id) : y ∈ (chunkUpsert c x).map Chunk.id := by
  induction c with
  | nil => simp at hy
  | cons g t ih =>
    rw [chunkUpsert_cons]
    by_cases h : g.id = x.id
    · rcases (by simpa using hy : y = g.id ∨ y ∈ t.map Chunk.id) with rfl | hy'
      · simp [h]
      · simp [h, hy']
    · rcases (by simpa using hy : y = g.id ∨ y ∈ t.map Chunk.id) with rfl | hy'
      · simp [h]
      · simp [h, ih hy']

theorem foldUpsert_id_preserve (l : List Chunk) :
    ∀ (c : List Chunk) (y : String), y ∈ c.map Chunk.id →
      y ∈ (l.foldl chunkUpsert c).map Chunk.id := by
  induction l with
  | nil => intro c y hy; simpa using hy
  | cons x t ih =>
    intro c y hy
    exact ih (chunkUpsert c x) y (chunkUpsert_id_mem c x y hy)

theorem foldUpsert_mem_all (l : List Chunk) :
    ∀ (c : List Chunk), ∀ x ∈ l, x.id ∈ (l.foldl chunkUpsert c).map Chunk.id := by
  induction l with
  | nil => intro c x hx; simp at hx
  | cons y t ih =>
    intro c x hx
    rcases List.mem_cons.mp hx with rfl | hx'
    · exact foldUpsert_id_preserve t (chunkUpsert c x) x.id (chunkUpsert_self_mem c x)
    · exact ih (chunkUpsert c y) x hx'

theorem foldUpsert_length (l : List Chunk) :
    ∀ (c : List Chunk), (∀ x ∈ l, x.id ∈ c.map Chunk.id) →
      (l.foldl chunkUpsert c).length = c.length := by
  induction l with
  | nil => intro c _; rfl
  | cons g t ih =>
    intro c hall
    have h1 : (chunkUpsert c g).length = c.length :=
      chunkUpsert_length_of_mem c g (hall g (List.mem_cons_self _ _))
    have h2 : ∀ x ∈ t, x.id ∈ (chunkUpsert c g).map Chunk.id := fun x hx =>
      chunkUpsert_id_mem c g x.id (hall x (List.mem_cons_of_mem _ hx))
    rw [List.foldl_cons, ih (chunkUpsert c g) h2, h1]


theorem extractPhase_preserve (extract : Session → Except Unit String) :
    ∀ (ss : List Session) (cache : List (String × String)) (rs : List String)
      (cache' : List (String × String)),
      extractPhase extract ss cache = .ok (rs, cache') →
      ∀ (k : String) (v : String), cache.lookup k = some v →
        cache'.lookup k = some v := by
  intro ss
  induction ss with
  | nil =>
    intro cache rs cache' h k v hkv
    simp only [extractPhase, Except.ok.injEq, Prod.mk.injEq] at h
    rw [← h.2]
    exact hkv
  | cons s t ih =>
    intro cache rs cache' h k v hkv
    rcases hl : cache.lookup s.sessionId with _ | raw
    · rcases he : extract s with e | raw
      · simp only [extractPhase, hl, he] at h
        exact Except.noConfusion h
      · simp only [extractPhase, hl, he] at h
        rcases hrec : extractPhase extract t (setEntry cache s.sessionId raw) with e | p
        · simp only [hrec, Except.map] at h
          exact Except.noConfusion h
        · simp only [hrec, Except.map, Except.ok.injEq, Prod.mk.injEq] at h
          have hk : k ≠ s.sessionId := by
            intro heq
            rw [heq, hl] at hkv
            cases hkv
          have hkv1 : (setEntry cache s.sessionId raw).lookup k = some v := by
            rw [lookup_setEntry, if_neg hk]
            exact hkv
          rw [← h.2]
          exact ih _ _ _ hrec k v hkv1
    · simp only [extractPhase, hl] at h
      rcases hrec : extractPhase extract t cache with e | p
      · simp only [hrec, Except.map] at h
        exact Except.noConfusion h
      · simp only [hrec, Except.map, Except.ok.injEq, Prod.mk.injEq] at h
        rw [← h.2]
        exact ih _ _ _ hrec k v hkv

theorem extractPhase_idem (extract : Session → Except Unit String) :
    ∀ (ss : List Session) (cache : List (String × String)) (rs : List String)
      (cache' : List (String × String)),
      extractPhase extract ss cache = .ok (rs, cache') →
      extractPhase extract ss cache' = .ok (rs, cache') := by
  intro ss
  induction ss with
  | nil =>
    intro cache rs cache' h
    simp only [extractPhase, Except.ok.injEq, Prod.mk.injEq] at h ⊢
    exact ⟨h.1, trivial⟩
  | cons s t ih =>
    intro cache rs cache' h
    rcases hl : cache.lookup s.sessionId with _ | raw
    · rcases he : extract s with e | raw
      · simp only [extractPhase, hl, he] at h
        exact Except.noConfusion h
      · simp only [extractPhase, hl, he] at h
        rcases hrec : extractPhase extract t (setEntry cache s.sessionId raw) with e | p
        · simp only [hrec, Except.map] at h
          exact Except.noConfusion h
        · simp only [hrec, Except.map, Except.ok.injEq, Prod.mk.injEq] at h
          obtain ⟨h1, h2⟩ := h
          have hself : (setEntry cache s.sessionId raw).lookup s.sessionId = some raw :=
            lookup_setEntry_self _ _ _
          have hhit : cache'.lookup s.sessionId = some raw := by
            rw [← h2]
            exact extractPhase_preserve extract t _ _ _ hrec _ _ hself
          have hrec2 : extractPhase extract t (setEntry cache s.sessionId raw) =
              .ok (p.1, cache') := by
            rw [hrec, ← h2]
          have hrec' := ih _ _ _ hrec2
          simp only [extractPhase, hhit, hrec', Except.map, ← h1]
    · simp only [extractPhase, hl] at h
      rcases hrec : extractPhase extract t cache with e | p
      · simp only [hrec, Except.map] at h
        exact Except.noConfusion h
      · simp only [hrec, Except.map, Except.ok.injEq, Prod.mk.injEq] at h
        obtain ⟨h1, h2⟩ := h
        have hhit : cache'.lookup s.sessionId = some raw := by
          rw [← h2]
          exact extractPhase_preserve extract t _ _ _ hrec _ _ hl
        have hrec2 : extractPhase extract t cache = .ok (p.1, cache') := by
          rw [hrec, ← h2]
        have hrec' := ih _ _ _ hrec2
        simp only [extractPhase, hhit, hrec', Except.map, ← h1]

/-! ## Provider state stage lemmas and the re-ingest claim -/

theorem ensureGraph_cache (σ : RAGState) (tag : String) :
    (ensureGraph σ tag).extractionCache = σ.extractionCache := by
  unfold ensureGraph
  split <;> rfl

theorem ensureGraph_engine (σ : RAGState) (tag : String) :
    (ensureGraph σ tag).searchEngine = σ.searchEngine := by
  unfold ensureGraph
  split <;> rfl

theorem ensureGraph_eq_of_some (σ : RAGState) (tag : String)
    (h : (σ.graphs.lookup tag).isSome) : ensureGraph σ tag = σ := by
  unfold ensureGraph
  split
  · rfl
  · rename_i heq
    rw [heq] at h
    cases h

theorem buildProfileStep_engine (O : ProviderOracles)
    (parsed : List (Session × ParsedExtraction × String)) (tag : String)
    (σ : RAGState) : (buildProfileStep O parsed tag σ).searchEngine = σ.searchEngine := by
  simp only [buildProfileStep]
  split <;> rfl

theorem buildProfileStep_graphs (O : ProviderOracles)
    (parsed : List (Session × ParsedExtraction × String)) (tag : String)
    (σ : RAGState) : (buildProfileStep O parsed tag σ).graphs = σ.graphs := by
  simp only [buildProfileStep]
  split <;> rfl

theorem buildProfileStep_cache (O : ProviderOracles)
    (parsed : List (Session × ParsedExtraction × String)) (tag : String)
    (σ : RAGState) : (buildProfileStep O parsed tag σ).extractionCache = σ.extractionCache := by
  simp only [buildProfileStep]
  split <;> rfl

theorem addChunks_twice_count (E : HybridSearchEngine) (tag : String) (l : List Chunk) :
    ((E.addChunks tag l).addChunks tag l).getChunkCount tag =
      (E.addChunks tag l).getChunkCount tag := by
  unfold HybridSearchEngine.addChunks HybridSearchEngine.getChunkCount
  simp only [lookup_setEntry_self, Option.getD_some]
  exact foldUpsert_length l _ (foldUpsert_mem_all l _)


theorem saveToCacheOp_engine (σ : RAGState) (tag : String) :
    (saveToCacheOp σ tag).searchEngine = σ.searchEngine := rfl

theorem saveToCacheOp_graphs (σ : RAGState) (tag : String) :
    (saveToCacheOp σ tag).graphs = σ.graphs := rfl

theorem saveToCacheOp_cache (σ : RAGState) (tag : String) :
    (saveToCacheOp σ tag).extractionCache = σ.extractionCache := rfl

/-- C5: re-ingesting the same batch a second time produces no net change
in the container's chunk count.  The extraction cache serves the same raw
payloads (extraction-phase fixpoint), so the re-ingest constructs chunks
with identical ids and contents; committing them again upserts by id into
the per-container chunk map, and the second ingest succeeds with the same
document ids and an unchanged chunk count. -/
theorem C5_reingest_idempotent (O : ProviderOracles) (sessions : List Session) (tag : String)
    (σ0 : RAGState) (ids : List String) (σ1 : RAGState)
    (h : ingestOp O σ0 sessions tag = .ok (ids, σ1)) :
    ∃ σ2, ingestOp O σ1 sessions tag = .ok (ids, σ2) ∧
      σ2.searchEngine.getChunkCount tag = σ1.searchEngine.getChunkCount tag := by
  simp only [ingestOp] at h
  rcases hx : extractPhase O.extractMemories sessions
      (ensureGraph σ0 tag).extractionCache with e | ⟨raws, cache'⟩
  · rw [hx] at h
    exact Except.noConfusion h
  rw [hx] at h
  simp only [] at h
  have hidem := extractPhase_idem O.extractMemories sessions _ _ _ hx
  rcases hb : buildAllChunks (List.map (fun p =>
      (p.1, O.parseExtractionOutput p.2, dateStrOf p.1)) (sessions.zip raws)) with e | allChunks
  · rw [hb] at h
    exact Except.noConfusion h
  rw [hb] at h
  simp only [] at h
  by_cases hae : allChunks.isEmpty = true
  · rw [if_pos hae] at h
    simp only [Except.ok.injEq, Prod.mk.injEq] at h
    obtain ⟨hids, hσ1⟩ := h
    have f1 : σ1.extractionCache = cache' := by rw [← hσ1]
    have f2 : (σ1.graphs.lookup tag).isSome := by
      rw [← hσ1]
      simp only [lookup_setEntry_self]
      rfl
    simp only [ingestOp, ensureGraph_eq_of_some σ1 tag f2, f1, hidem]
    simp only [hb]
    rw [if_pos hae]
    exact ⟨_, by rw [← hids], by rfl⟩
  · rw [if_neg hae] at h
    rcases hec : embedChunksBatched O tag allChunks with e | embedded
    · rw [hec] at h
      exact Except.noConfusion h
    rw [hec] at h
    simp only [] at h
    by_cases hrf : (buildRawFacts (List.map (fun p =>
        (p.1, O.parseExtractionOutput p.2, dateStrOf p.1)) (sessions.zip raws))).isEmpty = true
    · rw [if_pos hrf] at h
      simp only [Except.ok.injEq, Prod.mk.injEq] at h
      obtain ⟨hids, hσ1⟩ := h
      have f1 : σ1.extractionCache = cache' := by
        rw [← hσ1, saveToCacheOp_cache, buildProfileStep_cache]
      have f2 : (σ1.graphs.lookup tag).isSome := by
        rw [← hσ1, saveToCacheOp_graphs, buildProfileStep_graphs]
        simp only [lookup_setEntry_self]
        rfl
      have f3 : σ1.searchEngine =
          (ensureGraph σ0 tag).searchEngine.addChunks tag embedded := by
        rw [← hσ1, saveToCacheOp_engine, buildProfileStep_engine]
      simp only [ingestOp, ensureGraph_eq_of_some σ1 tag f2, f1, hidem]
      simp only [hb]
      rw [if_neg hae]
      simp only [hec]
      rw [if_pos hrf]
      refine ⟨_, by rw [← hids], ?_⟩
      simp only [saveToCacheOp_engine, buildProfileStep_engine]
      rw [f3]
      exact addChunks_twice_count _ tag embedded
    · rw [if_neg hrf] at h
      rcases hef : embedFactsBatched O tag (buildRawFacts (List.map (fun p =>
          (p.1, O.parseExtractionOutput p.2, dateStrOf p.1)) (sessions.zip raws))) with e | efacts
      · rw [hef] at h
        exact Except.noConfusion h
      rw [hef] at h
      simp only [Except.ok.injEq, Prod.mk.injEq] at h
      obtain ⟨hids, hσ1⟩ := h
      have f1 : σ1.extractionCache = cache' := by
        rw [← hσ1, saveToCacheOp_cache, buildProfileStep_cache]
      have f2 : (σ1.graphs.lookup tag).isSome := by
        rw [← hσ1, saveToCacheOp_graphs, buildProfileStep_graphs]
        simp only [lookup_setEntry_self]
        rfl
      have f3 : σ1.searchEngine =
          (ensureGraph σ0 tag).searchEngine.addChunks tag embedded := by
        rw [← hσ1, saveToCacheOp_engine, buildProfileStep_engine]
      simp only [ingestOp, ensureGraph_eq_of_some σ1 tag f2, f1, hidem]
      simp only [hb]
      rw [if_neg hae]
      simp only [hec]
      rw [if_neg hrf]
      simp only [hef]
      refine ⟨_, by rw [← hids], ?_⟩
      simp only [saveToCacheOp_engine, buildProfileStep_engine]
      rw [f3]
      exact addChunks_twice_count _ tag embedded


/-- Concrete oracles for the C5 witness: extraction always succeeds with a
fixed memories line. -/
noncomputable def c5Oracles : ProviderOracles :=
  { extractMemories := fun _ => .ok "hello memories line",
    parseExtractionOutput := fun raw => { memoriesText := raw },
    embedMany := fun ts => .ok (ts.map fun _ => [1]),
    embedQuery := fun _ => [1],
    profileText := fun _ => none,
    decomposeQuery := fun _ => [],
    graphContext := fun _ _ => none,
    rerankOutcome := fun _ _ => .throws }

/-- The result of one concrete ingest of session `"s"` into container
`"t"` from the empty state. -/
noncomputable def c5Run : List String × RAGState :=
  match ingestOp c5Oracles {} [⟨"s", [], none⟩] "t" with
  | .ok p => p
  | .error _ => ([], {})

/-- C5 witness: the re-ingest theorem applied to the concrete first ingest,
whose success is discharged by evaluation. -/
theorem C5_witness :
    ∃ σ2, ingestOp c5Oracles c5Run.2 [⟨"s", [], none⟩] "t" = .ok (c5Run.1, σ2) ∧
      σ2.searchEngine.getChunkCount "t" = c5Run.2.searchEngine.getChunkCount "t" :=
  C5_reingest_idempotent c5Oracles [⟨"s", [], none⟩] "t" {} c5Run.1 c5Run.2 (by rfl)

/-! ## Clear / search interplay (claim C1) -/

/-- Concrete oracles for the C1 run: extraction succeeds with the short
payload `"hi"` (too short to produce atomic facts), embeddings are the
constant vector `[1]`, and all optional LLM features are inert. -/
noncomputable def c1Oracles : ProviderOracles :=
  { extractMemories := fun _ => .ok "hi",
    parseExtractionOutput := fun raw => { memoriesText := raw },
    embedMany := fun ts => .ok (ts.map fun _ => [1]),
    embedQuery := fun _ => [1],
    profileText := fun _ => none,
    decomposeQuery := fun _ => [],
    graphContext := fun _ _ => none,
    rerankOutcome := fun _ _ => .throws }

/-- One concrete ingest of session `"s"` into container `"t"` from the
empty state (it succeeds and snapshots the container to disk). -/
noncomputable def c1Run : List String × RAGState :=
  match ingestOp c1Oracles {} [⟨"s", [], none⟩] "t" with
  | .ok p => p
  | .error _ => ([], {})

/-- The single chunk committed by the C1 ingest. -/
noncomputable def c1Chunk : Chunk :=
  { id := "t_s_0", content := "# Memories from unknown\n\nhi", sessionId := "s",
    chunkIndex := 0, embedding := [1], date := some "unknown", eventDate := none }

/-- The provider state after `clear("t")`: all in-memory indices are gone,
but the on-disk snapshot still holds the chunk. -/
noncomputable def c1Cleared : RAGState :=
  { searchEngine := ⟨[]⟩, factStore := ⟨[]⟩, graphs := [], profiles := [],
    extractionCache := [("s", "hi")],
    disk := [("t", ⟨some [c1Chunk], none, none, none⟩)] }

/-- The state after the post-clear search lazily reloaded the snapshot. -/
noncomputable def c1Loaded : RAGState :=
  { searchEngine := ⟨[("t", [c1Chunk])]⟩, factStore := ⟨[]⟩, graphs := [], profiles := [],
    extractionCache := [("s", "hi")],
    disk := [("t", ⟨some [c1Chunk], none, none, none⟩)] }

/-- C1 (code bug): after a successful ingest into container `"t"` and a
completed `clear("t")`, a subsequent search against `"t"` does NOT return
the empty result list.  `clear` drops only the in-memory indices and
deletes no snapshot files, while `search` lazily reloads the on-disk
snapshot whenever the engine has no data for the tag — so the cleared
chunk comes back and the search returns it. -/
theorem C1_clear_then_search_resurrects :
    ingestOp c1Oracles {} [⟨"s", [], none⟩] "t" = .ok (["t_s_0"], c1Run.2) ∧
    clearOp c1Run.2 "t" = c1Cleared ∧
    (searchOp c1Oracles (clearOp c1Run.2 "t") "q" "t" none).1 ≠ [] := by
  refine ⟨rfl, rfl, ?_⟩
  show (searchOp c1Oracles c1Cleared "q" "t" none).1 ≠ []
  have hld : (loadFromCacheOp c1Cleared "t").1 = c1Loaded := rfl
  have hfact : c1Loaded.factStore.search "t" (c1Oracles.embedQuery "q") 30 = [] := rfl
  have hlen : (c1Loaded.searchEngine.search "t" (c1Oracles.embedQuery "q") "q"
      (jsOrNat none 10 ⊔ 40)).length = 1 := by
    show (HybridSearchEngine.search ⟨[("t", [c1Chunk])]⟩ "t" [1] "q"
      (jsOrNat none 10 ⊔ 40)).length = 1
    simp only [HybridSearchEngine.search, List.lookup_cons]
    simp +decide [List.mergeSort_singleton]
  simp only [searchOp]
  rw [if_neg (by decide : ¬ c1Cleared.searchEngine.hasData "t" = true)]
  rw [hld]
  simp only [hfact]
  simp only [List.map_nil, List.dedup_nil, List.isEmpty_nil, if_true]
  simp only [injectParentChunks, List.isEmpty_nil, if_true]
  rw [if_neg (by decide : ¬ isCountingQuery "q" = true)]
  rw [hlen]
  rw [if_neg (by decide : ¬ jsOrNat none 10 < 1)]
  have hg : c1Loaded.graphs = [] := rfl
  have hp : c1Loaded.profiles = [] := rfl
  rw [hg, hp]
  simp only [List.lookup_nil, List.append_nil]
  intro hcontra
  have hzero := congrArg List.length hcontra
  simp [hlen] at hzero

end RAG
